import Mathlib

/-!
Verification of the markdown-table maintenance scripts of awesome-shadcn-ui
(`scripts/fill-github-stars.js`, `scripts/sort-tables-by-stars.js`,
`scripts/split-link-column.js`, `scripts/fill-github-from-website.js`, and the
unnamed `add-github-stars-column.js`).

Shallow embedding conventions:
- A JS string is modelled as `List Char` (`JStr`); the JS string builtins the
  scripts use (`split` on one character, `trim`, `toLowerCase`,
  `replace(/,/g,'')`, `startsWith`, `endsWith`, the regexes) are given explicit
  char-level definitions.
- A document is a `List JStr` of lines (the scripts split the README on `'\n'`).
- A JS number value arising in these scripts is an exact decimal, modelled as
  `JNum` (an integer numerator over a power-of-ten denominator), with
  `JNum.toRat` giving the rational it denotes.  `null`/`undefined` results are
  `Option`.
- Network fetches are an oracle parameter `fetch : JStr → FetchRes`.
-/

/-- A JS string, modelled as its character sequence. -/
abbrev JStr := List Char

/-- JS whitespace as used by `String.prototype.trim` and regex `\s`
(the ASCII whitespace characters, which are the only ones that occur here). -/
def jsIsWs (c : Char) : Bool :=
  c = ' ' || c = '\t' || c = '\n' || c = '\r' || c = '\x0b' || c = '\x0c'

/-- Model of `String.prototype.trim`. -/
def jsTrim (s : JStr) : JStr :=
  ((s.dropWhile jsIsWs).reverse.dropWhile jsIsWs).reverse

/-- Model of `String.prototype.split` with a single-character separator:
`"".split(c)` is `[""]`, and a separator at either end produces an empty part. -/
def splitChar (c : Char) : JStr → List JStr
  | [] => [[]]
  | a :: rest =>
    if a = c then [] :: splitChar c rest
    else
      match splitChar c rest with
      | h :: t => (a :: h) :: t
      | [] => [[a]]

/-- Model of `Array.prototype.join` with a single-character separator. -/
def joinChar (c : Char) : List JStr → JStr
  | [] => []
  | [p] => p
  | p :: ps => p ++ c :: joinChar c ps

/-- ASCII lowering; model of `String.prototype.toLowerCase` on the ASCII
header/cell texts this repository uses. -/
def lowerChar (c : Char) : Char :=
  if 'A' ≤ c ∧ c ≤ 'Z' then Char.ofNat (c.toNat + 32) else c

/-- Model of `String.prototype.toLowerCase`. -/
def jsToLower (s : JStr) : JStr := s.map lowerChar

/-- Model of `arr.splice(n, 0, a)`: insert `a` at index `n`; an index past the
end appends (JS clamps the splice start to the array length). -/
def spliceInsert (n : Nat) (a : α) (l : List α) : List α :=
  l.take n ++ a :: l.drop n

/-- `separatorCellFrom` (identical in fill-github-stars.js,
add-github-stars-column.js and split-link-column.js): build a `---` separator
cell, carrying over the leading/trailing alignment colons of the (possibly
absent) reference cell.  `none` models a missing (`undefined`) reference,
handled by the JS `(cell || '')` guard. -/
def separatorCellFrom (cell : Option JStr) : JStr :=
  let trimmed := jsTrim (cell.getD [])
  let leftAlign := trimmed.head? = some ':'
  let rightAlign := trimmed.getLast? = some ':'
  (if leftAlign then [':'] else []) ++ "---".data ++ (if rightAlign then [':'] else [])

/-! ### Exact JS decimal values -/

/-- An exact JS number value as produced by the scripts' numeric parsing:
`num / 10 ^ exp10`.  Every number built here is an integer or a finite decimal
fraction, so this representation is exact and all of its operations and
comparisons are kernel-computable. -/
structure JNum where
  num : ℤ
  exp10 : ℕ
  deriving DecidableEq, Repr

/-- The rational value a `JNum` denotes. -/
def JNum.toRat (v : JNum) : ℚ := (v.num : ℚ) / 10 ^ v.exp10

/-- The `JNum` denoting an integer. -/
def JNum.ofInt (n : ℤ) : JNum := ⟨n, 0⟩

/-- Multiplication by an integer (used for the `* 1000` of the `k` suffix). -/
def JNum.mulInt (v : JNum) (n : ℤ) : JNum := ⟨v.num * n, v.exp10⟩

/-- Negation (used for a leading `-` sign). -/
def JNum.neg (v : JNum) : JNum := ⟨-v.num, v.exp10⟩

/-- Scaling by `10 ^ e` for an integer `e` (decimal exponent part). -/
def JNum.scale10 (v : JNum) (e : ℤ) : JNum :=
  match e with
  | .ofNat k => ⟨v.num * 10 ^ k, v.exp10⟩
  | .negSucc k => ⟨v.num, v.exp10 + (k + 1)⟩

/-- JS number equality on the denoted values (cross-multiplication of the
power-of-ten denominators). -/
def JNum.beq (a b : JNum) : Bool :=
  a.num * 10 ^ b.exp10 = b.num * 10 ^ a.exp10

/-- JS `<=` on the denoted values. -/
def JNum.ble (a b : JNum) : Bool :=
  a.num * 10 ^ b.exp10 ≤ b.num * 10 ^ a.exp10

/-- Model of `Math.round` (round half-up, i.e. `⌊v + 1/2⌋`):
`⌊(2 num + 10 ^ e) / (2 · 10 ^ e)⌋` via flooring integer division. -/
def jsRound (v : JNum) : ℤ :=
  Int.fdiv (2 * v.num + 10 ^ v.exp10) (2 * 10 ^ v.exp10)

/-! ### The star-value parser (`parseStars` in sort-tables-by-stars.js) -/

/-- ASCII digit test, regex class `[0-9]`. -/
def isDigitCh (c : Char) : Bool := '0' ≤ c && c ≤ '9'

/-- Numeric value of a decimal digit character. -/
def digitVal (c : Char) : Nat := c.toNat - '0'.toNat

/-- Value of a decimal digit string. -/
def natOfDigits (ds : JStr) : Nat := ds.foldl (fun n c => 10 * n + digitVal c) 0

/-- Exact value of a decimal literal with integer part `ip` and fractional
part `fp`. -/
def decValue (ip fp : JStr) : JNum := ⟨natOfDigits (ip ++ fp), fp.length⟩

/-- Does `cs` match the regex fragment `[0-9]*\.?[0-9]+` as a whole?
(Equivalently: a nonempty digit string, or digits, one dot, then one or more
digits.) -/
def numLike (cs : JStr) : Bool :=
  match cs.dropWhile isDigitCh with
  | [] => !cs.isEmpty
  | '.' :: rest2 => !rest2.isEmpty && rest2.all isDigitCh
  | _ => false

/-- Match the anchored regex `^([0-9]*\.?[0-9]+)\s*k$` against `cs`, returning
the capture group: `cs` must be the number, optional whitespace, then `k`. -/
def matchK (cs : JStr) : Option JStr :=
  match cs.reverse with
  | 'k' :: rest =>
    let num := (rest.dropWhile jsIsWs).reverse
    if numLike num then some num else none
  | _ => none

/-- The exact decimal value of a string already known to match
`[0-9]*\.?[0-9]+` (the capture group of `matchK`).  On such input
`parseFloat` never yields `NaN`, so the script's `Number.isNaN` guard never
fires — in particular an overflowed `Infinity` passes through it; the
saturation to `Infinity` is applied by the caller (`parseStars`) via
`dblOverflows`, and the rounding of finite values to the nearest double is
not modelled. -/
def parseFloatNum (cs : JStr) : JNum :=
  let ip := cs.takeWhile isDigitCh
  let fp := match cs.dropWhile isDigitCh with | '.' :: f => f | _ => []
  decValue ip fp

/-- Hexadecimal digit value, if any (letters of either case, via `lowerChar`). -/
def hexDigit? (c : Char) : Option Nat :=
  if isDigitCh c then some (digitVal c)
  else
    let lc := lowerChar c
    if 'a' ≤ lc && lc ≤ 'f' then some (10 + (lc.toNat - 'a'.toNat)) else none

/-- Octal digit value, if any. -/
def octDigit? (c : Char) : Option Nat :=
  if '0' ≤ c && c ≤ '7' then some (digitVal c) else none

/-- Binary digit value, if any. -/
def binDigit? (c : Char) : Option Nat :=
  if c = '0' then some 0 else if c = '1' then some 1 else none

/-- Value of a nonempty all-valid digit string in base `b`. -/
def radixVal (b : Nat) (dv : Char → Option Nat) (cs : JStr) : Option Nat :=
  if cs.isEmpty then none
  else
    cs.foldl
      (fun acc c =>
        match acc, dv c with
        | some n, some d => some (b * n + d)
        | _, _ => none)
      (some 0)

/-- Parse an (unsigned) decimal numeric literal, the whole string:
`digits [. digits] [e[±]digits]` or `. digits [e[±]digits]`. -/
def parseDecExp (cs : JStr) : Option JNum :=
  let ip := cs.takeWhile isDigitCh
  let pf : JStr × JStr :=
    match cs.dropWhile isDigitCh with
    | '.' :: r => (r.takeWhile isDigitCh, r.dropWhile isDigitCh)
    | r => ([], r)
  if ip.isEmpty && pf.1.isEmpty then none
  else
    let base := decValue ip pf.1
    match pf.2 with
    | [] => some base
    | 'e' :: r3 | 'E' :: r3 =>
      let pe : ℤ × JStr :=
        match r3 with
        | '+' :: r => (1, r)
        | '-' :: r => (-1, r)
        | _ => (1, r3)
      let ed := pe.2.takeWhile isDigitCh
      if ed.isEmpty || !(pe.2.dropWhile isDigitCh).isEmpty then none
      else some (base.scale10 (pe.1 * (natOfDigits ed : ℤ)))
    | _ => none

/-- Model of the JS builtin `Number(string)`, restricted to finite results:
`none` stands for `NaN` or `±Infinity` (the caller checks `Number.isFinite`).
Covers the string numeric literal grammar: surrounding whitespace, empty
string (`0`), optional sign with a decimal literal (optional fraction and
exponent), `0x`/`0o`/`0b` radix literals (signless), and `Infinity` (into
`none`, being non-finite). -/
def jsNumberFinite (s : JStr) : Option JNum :=
  let t := jsTrim s
  if t.isEmpty then some (JNum.ofInt 0)
  else
    match t with
    | '0' :: 'x' :: ds => (radixVal 16 hexDigit? ds).map (fun n => JNum.ofInt n)
    | '0' :: 'X' :: ds => (radixVal 16 hexDigit? ds).map (fun n => JNum.ofInt n)
    | '0' :: 'o' :: ds => (radixVal 8 octDigit? ds).map (fun n => JNum.ofInt n)
    | '0' :: 'O' :: ds => (radixVal 8 octDigit? ds).map (fun n => JNum.ofInt n)
    | '0' :: 'b' :: ds => (radixVal 2 binDigit? ds).map (fun n => JNum.ofInt n)
    | '0' :: 'B' :: ds => (radixVal 2 binDigit? ds).map (fun n => JNum.ofInt n)
    | _ =>
      let sg : Bool × JStr :=
        match t with
        | '+' :: r => (false, r)
        | '-' :: r => (true, r)
        | _ => (false, t)
      if sg.2 = "Infinity".data then none
      else (parseDecExp sg.2).map (fun v => if sg.1 then v.neg else v)

/-- A JS number as returned by the star parser: a finite decimal, or the
`Infinity` that the `k` branch produces when its double-precision arithmetic
overflows (the capture is a nonnegative decimal, so only positive infinity
can arise; `NaN` cannot — the `Number.isNaN` and `Number.isFinite` guards
exclude it on every path). -/
inductive JSNum where
  | finite (v : JNum)
  | inf
  deriving DecidableEq, Repr

/-- The key a star value denotes, with `Infinity` as the top element. -/
def JSNum.keyVal : JSNum → WithTop ℚ
  | .finite v => (v.toRat : WithTop ℚ)
  | .inf => ⊤

/-- JS `===`-equality on star values (`Infinity === Infinity` holds;
finite values compare as the reals they denote). -/
def JSNum.beq : JSNum → JSNum → Bool
  | .finite a, .finite b => JNum.beq a b
  | .inf, .inf => true
  | _, _ => false

/-- JS `<=` on star values (the sign test `a - b <= 0`; `Infinity` above
every finite value). -/
def JSNum.ble : JSNum → JSNum → Bool
  | .finite a, .finite b => JNum.ble a b
  | .finite _, .inf => true
  | .inf, .finite _ => false
  | .inf, .inf => true

/-- Does a nonnegative exact value fall in the IEEE-754 double overflow
range?  A nonnegative real rounds (to nearest, ties to even) to `Infinity`
exactly when it reaches `2^1024 − 2^970`, the midpoint above the largest
finite double.  The threshold is written as `(2^97)^10 · (2^54 − 1)`
(the same number, since `2^1024 − 2^970 = 2^970 · (2^54 − 1)`) to keep every
literal exponent within the evaluator's folding threshold. -/
def dblOverflows (v : JNum) : Bool :=
  ((((2 ^ 97 : ℕ) ^ 10) * (2 ^ 54 - 1) : ℕ) : ℤ) * ((10 ^ v.exp10 : ℕ) : ℤ) ≤ v.num

/-- `parseStars` from sort-tables-by-stars.js: trim, drop commas, lower-case;
a `<number>k` suffix multiplies by 1000 and rounds; otherwise direct numeric
conversion; empty or unparseable input is `none`.

The `k` branch is `Math.round(parseFloat(m[1]) * 1000)` in IEEE doubles:
`parseFloat` of the matched capture is never `NaN` (so the `Number.isNaN`
guard never fires) but saturates to `Infinity` on overflow, which `* 1000`
and `Math.round` propagate — and `* 1000` can itself overflow a large finite
double.  The model returns `JSNum.inf` when the exact product reaches the
double overflow threshold, which agrees with the double evaluation except
within one unit in the last place of the boundary; finite results are kept
exact rather than rounded to the nearest double. -/
def parseStars (cellRaw : JStr) : Option JSNum :=
  if cellRaw.isEmpty then none
  else
    let s := jsTrim cellRaw
    if s.isEmpty then none
    else
      let normalized := jsToLower (s.filter (fun c => !(c = ',')))
      match matchK normalized with
      | some num =>
        if dblOverflows ((parseFloatNum num).mulInt 1000) then some JSNum.inf
        else some (JSNum.finite (JNum.ofInt (jsRound ((parseFloatNum num).mulInt 1000))))
      | none => (jsNumberFinite normalized).map JSNum.finite

/-! ### Shared table machinery -/

/-- `line.startsWith('|')`. -/
def isTableLine (line : JStr) : Bool :=
  match line with
  | '|' :: _ => true
  | _ => false

/-- `s.startsWith(pat)` for a general pattern (first argument). -/
def startsWithStr : JStr → JStr → Bool
  | [], _ => true
  | _ :: _, [] => false
  | p :: ps, c :: cs => p = c && startsWithStr ps cs

/-- `findIndex` over cells (`-1` becomes `none`). -/
def findIdxFrom (p : JStr → Bool) : List JStr → Option Nat
  | [] => none
  | x :: xs => if p x then some 0 else (findIdxFrom p xs).map (· + 1)

/-- The scripts' `idxOf`: index of the first cell whose trimmed text equals
`name` case-insensitively. -/
def idxOf (parts : List JStr) (name : JStr) : Option Nat :=
  findIdxFrom (fun p => jsToLower (jsTrim p) == jsToLower name) parts

/-- The two-spelling Github column lookup of fill-github-stars.js and
add-github-stars-column.js (`idxOf('Github')`, falling back to
`idxOf('GitHub')`). -/
def githubColOf (partsRaw : List JStr) : Option Nat :=
  match idxOf partsRaw "Github".data with
  | some g => some g
  | none => idxOf partsRaw "GitHub".data

/-- The JS `cell || ' --- '` fallback: an out-of-range (`undefined`) or empty
cell is replaced by `' --- '`. -/
def orDashes (c : Option JStr) : JStr :=
  match c with
  | some s => if s.isEmpty then " --- ".data else s
  | none => " --- ".data

/-- The scripts' `while (parts.length <= m) parts.push(pad)` padding, i.e.
pad to length at least `n = m + 1`. -/
def padTo (n : Nat) (pad : JStr) (parts : List JStr) : List JStr :=
  parts ++ List.replicate (n - parts.length) pad

/-- Decimal digits of a natural number (fuel-based so it kernel-computes);
models `String(n)`. -/
def natToStrAux : Nat → Nat → JStr → JStr
  | 0, _, acc => acc
  | fuel + 1, n, acc =>
    let acc := Char.ofNat (n % 10 + 48) :: acc
    if n < 10 then acc else natToStrAux fuel (n / 10) acc

/-- `String(n)` for a natural number. -/
def natToStr (n : Nat) : JStr := natToStrAux (n + 1) n []

/-- `String(n)` for an integer. -/
def intToStr : ℤ → JStr
  | .ofNat m => natToStr m
  | .negSucc m => '-' :: natToStr (m + 1)

/-- `findTables` (identical shape in fill-github-stars.js and
sort-tables-by-stars.js): walk the lines keeping an `inTable` flag; a pipe
line either opens a new table or extends the last one; a non-pipe line closes
the current table.  Tables are returned as their ordered `rows` lists of
absolute line indices. -/
def findTablesAux : Nat → List JStr → Bool → List (List Nat) → List (List Nat)
  | _, [], _, tables => tables
  | i, line :: rest, inTable, tables =>
    if isTableLine line then
      if inTable then findTablesAux (i + 1) rest true (appendLast tables i)
      else findTablesAux (i + 1) rest true (tables ++ [[i]])
    else findTablesAux (i + 1) rest false tables
where
  /-- `tables[tables.length - 1].rows.push(i)`. -/
  appendLast : List (List Nat) → Nat → List (List Nat)
    | [], i => [[i]]
    | [t], i => [t ++ [i]]
    | t :: ts, i => t :: appendLast ts i

/-- The `rows` index lists of all tables of a document. -/
def findTables (lines : List JStr) : List (List Nat) :=
  findTablesAux 0 lines false []

/-! ### Link extraction and repo parsing -/

/-- First match of the regex `\]\(([^)]+)\)` in `cs` (capture group returned):
scan for `](`, then one or more non-`)` characters up to a closing `)`.  When
the attempt at a `](` fails (no closing `)` or empty URL) the scan resumes
after it — no later match can start at the skipped `(`. -/
def matchMdLink : JStr → Option JStr
  | [] => none
  | ']' :: '(' :: rest =>
    let url := rest.takeWhile (fun c => !(c = ')'))
    let rem := rest.dropWhile (fun c => !(c = ')'))
    if !url.isEmpty && !rem.isEmpty then some url
    else matchMdLink rest
  | _ :: rest => matchMdLink rest

/-- Case-insensitive prefix strip: `pat` (given lowercase) against `s`,
returning the remainder of `s`. -/
def stripPrefixCI : JStr → JStr → Option JStr
  | [], s => some s
  | _ :: _, [] => none
  | p :: ps, c :: cs => if lowerChar c = p then stripPrefixCI ps cs else none

/-- Does `s` start with `pat` (case-insensitive, `pat` lowercase)? -/
def matchesCI (pat s : JStr) : Bool := (stripPrefixCI pat s).isSome

/-- Does `s` contain `pat` (case-insensitive, `pat` lowercase) anywhere? -/
def containsCI : JStr → JStr → Bool
  | pat, [] => (stripPrefixCI pat ([] : JStr)).isSome
  | pat, c :: rest => matchesCI pat (c :: rest) || containsCI pat rest

/-- The regex run `[^\s)]+` starting here. -/
def urlRun (s : JStr) : JStr := s.takeWhile (fun c => !(jsIsWs c || c = ')'))

/-- Try the regex `https?:\/\/[^\s)]+` (case-insensitive) at the start of
`s`, returning the matched text (original characters). -/
def tryHttpAt (s : JStr) : Option JStr :=
  if matchesCI "https://".data s then
    let run := urlRun (s.drop 8)
    if run.isEmpty then none else some (s.take 8 ++ run)
  else if matchesCI "http://".data s then
    let run := urlRun (s.drop 7)
    if run.isEmpty then none else some (s.take 7 ++ run)
  else none

/-- First match of `https?:\/\/[^\s)]+` (case-insensitive) anywhere in `cs`. -/
def matchBareUrl : JStr → Option JStr
  | [] => none
  | c :: rest =>
    match tryHttpAt (c :: rest) with
    | some m => some m
    | none => matchBareUrl rest

/-- `extractMarkdownUrl` (fill-github-stars.js lines 52–58 and
fill-github-from-website.js lines 45–52): the (trimmed) URL of a
`[Text](URL)` markdown link if present, else the first bare http(s) URL. -/
def extractMarkdownUrl (cell : JStr) : Option JStr :=
  if cell.isEmpty then none
  else
    match matchMdLink cell with
    | some url => some (jsTrim url)
    | none => matchBareUrl cell

/-- The regex class `[A-Za-z0-9_.-]` of owner/repo segments. -/
def isRepoChar (c : Char) : Bool :=
  ('A' ≤ c && c ≤ 'Z') || ('a' ≤ c && c ≤ 'z') || isDigitCh c ||
    c = '_' || c = '.' || c = '-'

/-- `repo.replace(/\.git$/i, '')`. -/
def stripDotGit (repo : JStr) : JStr :=
  if (jsToLower repo).reverse.take 4 = "tig.".data then
    repo.take (repo.length - 4)
  else repo

/-- `parseGithubRepo` from fill-github-stars.js (lines 60–69): match
`^https?:\/\/(?:www\.)?github\.com\/([A-Za-z0-9_.-]+)\/([A-Za-z0-9_.-]+)(?:\/|$)`
case-insensitively, strip a trailing `.git` from the repo, and return
`owner/repo`. -/
def parseGithubRepo (url : Option JStr) : Option JStr :=
  match url with
  | none => none
  | some u =>
    if u.isEmpty then none
    else
      let afterScheme : Option JStr :=
        if matchesCI "https://".data u then some (u.drop 8)
        else if matchesCI "http://".data u then some (u.drop 7)
        else none
      match afterScheme with
      | none => none
      | some r0 =>
        let r1 := if matchesCI "www.".data r0 then r0.drop 4 else r0
        match stripPrefixCI "github.com/".data r1 with
        | none => none
        | some r2 =>
          let owner := r2.takeWhile isRepoChar
          let r3 := r2.dropWhile isRepoChar
          if owner.isEmpty then none
          else
            match r3 with
            | '/' :: r4 =>
              let repo := r4.takeWhile isRepoChar
              let r5 := r4.dropWhile isRepoChar
              if repo.isEmpty then none
              else if r5.isEmpty || r5.head? = some '/' then
                some (owner ++ '/' :: stripDotGit repo)
              else none
            | _ => none

/-- The normalization inside `githubApiFetchRepo` (fill-github-stars.js lines
122–126): lowercase the first two `/`-separated segments. -/
def normalizeRepo (repo : JStr) : JStr :=
  let parts := splitChar '/' repo
  jsToLower (parts.getD 0 []) ++ '/' :: jsToLower (parts.getD 1 [])

/-! ### Theorems for claims C2 and C7 -/

set_option maxRecDepth 8192 in
/-- C2 counterexample: 309 nines followed by `k` parses to `Infinity` —
`parseFloat` of the 309-digit capture saturates to `Infinity` (its value
exceeds the double overflow threshold `2^1024 − 2^970 ≈ 1.8·10^308`), the
`Number.isNaN` guard lets it through, and `Math.round(Infinity * 1000)` is
`Infinity`.  The result is `some JSNum.inf`: by constructor disjointness it
is neither the unparseable sentinel `none` nor a finite number
`some (JSNum.finite _)`, refuting the claim that every input yields a finite
number or the sentinel. -/
theorem C2_parse_stars_counterexample :
    parseStars (List.replicate 309 '9' ++ ['k']) = some JSNum.inf := by
  decide

set_option maxRecDepth 8192 in
/-- C2 (amended): the star-value parser is a total function — parsing
`"1,234"` yields 1234, `"2.5k"` yields 2500, `"3k"` yields 3000, and `""`
and `"abc"` both yield the unparseable sentinel `none`; every input string
maps to a number value or `none` and the parser cannot throw — but the value
is not always finite: the only non-finite result is the `Infinity` of a
`k`-suffixed count whose double-precision product with 1000 overflows, as
happens for 309 nines followed by `k`. -/
theorem C2_parse_stars_amended :
    (parseStars "1,234".data).map JSNum.keyVal = some ((1234 : ℚ) : WithTop ℚ) ∧
    (parseStars "2.5k".data).map JSNum.keyVal = some ((2500 : ℚ) : WithTop ℚ) ∧
    (parseStars "3k".data).map JSNum.keyVal = some ((3000 : ℚ) : WithTop ℚ) ∧
    parseStars "".data = none ∧
    parseStars "abc".data = none ∧
    (∀ s : JStr, (∃ r : JSNum, parseStars s = some r) ∨ parseStars s = none) ∧
    (∀ s : JStr, parseStars s = none ∨
      (∃ v : JNum, parseStars s = some (JSNum.finite v)) ∨
      (parseStars s = some JSNum.inf ∧
        ∃ num, matchK (jsToLower ((jsTrim s).filter (fun c => !(c = ',')))) = some num ∧
          dblOverflows ((parseFloatNum num).mulInt 1000) = true)) ∧
    parseStars (List.replicate 309 '9' ++ ['k']) = some JSNum.inf := by
  have h1 : parseStars "1,234".data = some (JSNum.finite ⟨1234, 0⟩) := by decide
  have h2 : parseStars "2.5k".data = some (JSNum.finite ⟨2500, 0⟩) := by decide
  have h3 : parseStars "3k".data = some (JSNum.finite ⟨3000, 0⟩) := by decide
  refine ⟨?_, ?_, ?_, by decide, by decide, ?_, ?_, by decide⟩
  · rw [h1]; simp [JSNum.keyVal]; norm_num [JNum.toRat]
  · rw [h2]; simp [JSNum.keyVal]; norm_num [JNum.toRat]
  · rw [h3]; simp [JSNum.keyVal]; norm_num [JNum.toRat]
  · intro s
    cases h : parseStars s with
    | none => exact Or.inr rfl
    | some q => exact Or.inl ⟨q, rfl⟩
  · intro s
    unfold parseStars
    by_cases he1 : s.isEmpty
    · rw [if_pos he1]
      exact Or.inl rfl
    · rw [if_neg he1]
      by_cases he2 : (jsTrim s).isEmpty
      · rw [if_pos he2]
        exact Or.inl rfl
      · rw [if_neg he2]
        dsimp only
        cases hm : matchK (jsToLower ((jsTrim s).filter (fun c => !(c = ',')))) with
        | none =>
          dsimp only
          cases hj : jsNumberFinite (jsToLower ((jsTrim s).filter (fun c => !(c = ',')))) with
          | none => exact Or.inl rfl
          | some v => exact Or.inr (Or.inl ⟨v, rfl⟩)
        | some num =>
          dsimp only
          by_cases ho : dblOverflows ((parseFloatNum num).mulInt 1000)
          · rw [if_pos ho]
            exact Or.inr (Or.inr ⟨rfl, num, rfl, ho⟩)
          · rw [if_neg ho]
            exact Or.inr (Or.inl ⟨_, rfl⟩)

/-- C7: the separator-styling function maps `":---:"` to `":---:"`, `"---:"`
to `"---:"`, `"---"` to `"---"`; in general the result carries a leading colon
iff the trimmed reference starts with a colon and a trailing colon iff the
trimmed reference ends with one, and an absent or empty reference yields the
unadorned `"---"`. -/
theorem C7_separator_styling :
    separatorCellFrom (some ":---:".data) = ":---:".data ∧
    separatorCellFrom (some "---:".data) = "---:".data ∧
    separatorCellFrom (some "---".data) = "---".data ∧
    (∀ cell : JStr,
      ((separatorCellFrom (some cell)).head? = some ':' ↔
        (jsTrim cell).head? = some ':') ∧
      ((separatorCellFrom (some cell)).getLast? = some ':' ↔
        (jsTrim cell).getLast? = some ':')) ∧
    separatorCellFrom none = "---".data ∧
    separatorCellFrom (some "".data) = "---".data := by
  refine ⟨by decide, by decide, by decide, ?_, by decide, by decide⟩
  intro cell
  unfold separatorCellFrom
  by_cases hl : (jsTrim cell).head? = some ':' <;>
    by_cases hr : (jsTrim cell).getLast? = some ':' <;>
      simp [hl, hr]

/-! ### fill-github-stars.js -/

/-- A pending star-fetch job (fill-github-stars.js line 231). -/
structure Job where
  lineIndex : Nat
  starsCol : Nat
  repo : JStr
  deriving DecidableEq, Repr

/-- One data-row edit of the insert branch (fill-github-stars.js lines
209–214): splice a blank cell into the row at `insertIndex`. -/
def spliceDataRow (insertIndex : Nat) (ls : List JStr) (ri : Nat) : List JStr :=
  ls.set ri (joinChar '|' (spliceInsert insertIndex [' '] (splitChar '|' (ls.getD ri []))))

/-- The structural line edits of the insert branch of fill-github-stars.js
`main` (lines 194–219): splice the header cell at `githubCol + 1` in the
header row, the alignment-preserving separator cell at the same index in the
separator row (the separator is re-read after the header write, as in the
source), and a blank cell at the same index in every data row. -/
def starsInsertLines (lines : List JStr) (r0 r1 : Nat) (dataRows : List Nat)
    (githubCol : Nat) : List JStr :=
  let insertIndex := githubCol + 1
  let lines1 := lines.set r0 (joinChar '|' (spliceInsert insertIndex
    " GitHub Stars ".data (splitChar '|' (lines.getD r0 []))))
  let sepParts := splitChar '|' (lines1.getD r1 [])
  let newSepCell := ' ' :: separatorCellFrom (some (orDashes (sepParts.get? githubCol))) ++ [' ']
  let lines2 := lines1.set r1 (joinChar '|' (spliceInsert insertIndex newSepCell sepParts))
  dataRows.foldl (spliceDataRow insertIndex) lines2

/-- Per-table pass of `main` in fill-github-stars.js (lines 176–237) over the
state `(lines, jobs, tablesTouched)`: skip tables with fewer than 3 lines or
without a Github column; insert the `GitHub Stars` column when missing
(via `starsInsertLines`); then collect a fetch job for every data row with a
GitHub repo link. -/
def processStarsTable (st : List JStr × List Job × Nat) (rows : List Nat) :
    List JStr × List Job × Nat :=
  if rows.length < 3 then st
  else
    match rows with
    | r0 :: r1 :: dataRows =>
      let lines := st.1
      let headerPartsRaw := splitChar '|' (lines.getD r0 [])
      match githubColOf headerPartsRaw with
      | none => st
      | some githubCol =>
        let starsCol? := idxOf headerPartsRaw "GitHub Stars".data
        let step1 : List JStr × Nat × Nat :=
          match starsCol? with
          | some sc => (lines, sc, st.2.2)
          | none =>
            (starsInsertLines lines r0 r1 dataRows githubCol, githubCol + 1, st.2.2 + 1)
        let jobs := dataRows.foldl
          (fun js ri =>
            let parts := padTo (max githubCol step1.2.1 + 1) [' ']
              (splitChar '|' (step1.1.getD ri []))
            match parseGithubRepo (extractMarkdownUrl (parts.getD githubCol [])) with
            | none => js
            | some repo => js ++ [⟨ri, step1.2.1, repo⟩])
          st.2.1
        (step1.1, jobs, step1.2.2)
    | _ => st

/-- Outcome of one GitHub repository metadata lookup, as distinguished by
fill-github-stars.js: a 2xx payload (whose `stargazers_count` may be absent,
hence `Option`), a detected rate-limit response, or any other failure. -/
inductive FetchRes where
  | ok (stars : Option ℤ)
  | rateLimited
  | failed
  deriving DecidableEq, Repr

/-- State of the fetch loop of fill-github-stars.js.  The cache is the JS
`Map` as an association list (newest binding first); `calls` records the
normalized repo id of every API request performed, in order. -/
structure RunSt where
  lines : List JStr
  cache : List (JStr × Option ℤ)
  calls : List JStr
  rowsUpdated : Nat
  hitRateLimit : Bool
  deriving Repr

/-- Writing a star count into a row (fill-github-stars.js lines 272–276):
re-split the line, pad up to the stars column, set the cell to `` ` ${stars} ` ``. -/
def writeStars (lines : List JStr) (lineIndex starsCol : Nat) (stars : ℤ) : List JStr :=
  let parts := padTo (starsCol + 1) [' '] (splitChar '|' (lines.getD lineIndex []))
  lines.set lineIndex (joinChar '|' (parts.set starsCol (' ' :: intToStr stars ++ [' '])))

/-- The fetch loop of fill-github-stars.js `main` (lines 249–277), network
modelled by the oracle `fetch` from a normalized repo id to a `FetchRes`.
A job's `stars` is taken from the cache; the JS test `stars == null` is true
both for a missing key and for a cached `null`, and only a non-null value
skips the network.  A rate-limited response breaks out of the loop. -/
def runJobs (fetch : JStr → FetchRes) : List Job → RunSt → RunSt
  | [], st => st
  | job :: rest, st =>
    match (match st.cache.lookup job.repo with
           | some (some v) => some v
           | _ => none) with
    | some v =>
      runJobs fetch rest
        { st with
          lines := writeStars st.lines job.lineIndex job.starsCol v
          rowsUpdated := st.rowsUpdated + 1 }
    | none =>
      let nrepo := normalizeRepo job.repo
      let st1 := { st with calls := st.calls ++ [nrepo] }
      match fetch nrepo with
      | .rateLimited => { st1 with hitRateLimit := true }
      | .failed => runJobs fetch rest st1
      | .ok stars? =>
        let st2 := { st1 with cache := (job.repo, stars?) :: st1.cache }
        match stars? with
        | none => runJobs fetch rest st2
        | some v =>
          runJobs fetch rest
            { st2 with
              lines := writeStars st2.lines job.lineIndex job.starsCol v
              rowsUpdated := st2.rowsUpdated + 1 }

/-- The full `main` of fill-github-stars.js on a document, network via
`fetch`: structural pass over all tables, then the fetch loop; returns the
content written back (`none` when the file is not rewritten) and the final
loop state and `tablesTouched` count. -/
def fillStarsMain (fetch : JStr → FetchRes) (content : JStr) :
    Option JStr × RunSt × Nat :=
  let lines := splitChar '\n' content
  let res := (findTables lines).foldl processStarsTable (lines, [], 0)
  if res.2.1.isEmpty then
    (if res.2.2 > 0 then some (joinChar '\n' res.1) else none,
     ⟨res.1, [], [], 0, false⟩, res.2.2)
  else
    let st := runJobs fetch res.2.1 ⟨res.1, [], [], 0, false⟩
    (if st.rowsUpdated > 0 ∨ res.2.2 > 0 then some (joinChar '\n' st.lines) else none,
     st, res.2.2)

/-! ### sort-tables-by-stars.js -/

/-- A sortable data-row entry (sort-tables-by-stars.js lines 105–110). -/
structure SortEntry where
  ri : Nat
  i : Nat
  stars : Option JSNum
  line : JStr
  deriving DecidableEq, Repr

/-- The comparator of sort-tables-by-stars.js (lines 113–121), as the sign
test `cmp a b ≤ 0`: a null key sorts after every numeric key (`cmp = 1`),
numeric keys descending (`cmp = b.stars - a.stars`), null/null pairs and
numeric ties by original position (`cmp = a.i - b.i`). -/
def entryLE (a b : SortEntry) : Bool :=
  match a.stars, b.stars with
  | none, none => decide (a.i ≤ b.i)
  | none, some _ => false
  | some _, none => true
  | some x, some y => if !(JSNum.beq y x) then JSNum.ble y x else decide (a.i ≤ b.i)

/-- Ordered insert for `sortByLE`. -/
def insSorted (le : α → α → Bool) (x : α) : List α → List α
  | [] => [x]
  | y :: ys => if le y x then y :: insSorted le x ys else x :: y :: ys

/-- Model of `Array.prototype.sort` with the script's comparator.  The
comparator is a total order (ties are broken by the distinct original
positions `i`), so every comparator-consistent sort — in particular the
engine's stable sort — produces the same, unique ordering; insertion sort is
used here because it kernel-computes. -/
def sortByLE (le : α → α → Bool) : List α → List α
  | [] => []
  | x :: xs => insSorted le x (sortByLE le xs)

/-- The sortable entries of a table (sort-tables-by-stars.js lines 105–110):
one per data-row line index, with its stable position `i`, parsed star cell
(`parts[starsCol] || ''`), and the line's text. -/
def tableEntries (lines : List JStr) (dataRowIndexes : List Nat) (starsCol : Nat) :
    List SortEntry :=
  dataRowIndexes.enum.map (fun p =>
    { ri := p.2, i := p.1,
      stars := parseStars ((splitChar '|' (lines.getD p.2 [])).getD starsCol []),
      line := lines.getD p.2 [] })

/-- Per-table pass of `main` in sort-tables-by-stars.js (lines 89–138) over
the state `(lines, tablesChanged)`: skip tables with fewer than 3 lines or
without a `GitHub Stars` column; otherwise build the entries, sort them, and
when the order changed rewrite the data-row positions with the sorted lines. -/
def processSortTable (st : List JStr × Nat) (rows : List Nat) : List JStr × Nat :=
  if rows.length < 3 then st
  else
    let lines := st.1
    let headerParts := splitChar '|' (lines.getD (rows.headD 0) [])
    match idxOf headerParts "GitHub Stars".data with
    | none => st
    | some starsCol =>
      let dataRowIndexes := rows.drop 2
      if dataRowIndexes.isEmpty then st
      else
        let entries := tableEntries lines dataRowIndexes starsCol
        let sorted := sortByLE entryLE entries
        let changed := (sorted.zip entries).any (fun p => !(p.1.ri == p.2.ri))
        if !changed then st
        else
          ((dataRowIndexes.zip sorted).foldl (fun ls p => ls.set p.1 p.2.line) lines,
           st.2 + 1)

/-- The line transformation of sort-tables-by-stars.js `main`. -/
def sortTablesLines (lines : List JStr) : List JStr :=
  ((findTables lines).foldl processSortTable (lines, 0)).1

/-- The full `main` of sort-tables-by-stars.js: the document is rewritten
iff some table changed. -/
def sortTablesMain (content : JStr) : Option JStr :=
  let res := (findTables (splitChar '\n' content)).foldl processSortTable
    (splitChar '\n' content, 0)
  if res.2 > 0 then some (joinChar '\n' res.1) else none

/-! ### add-github-stars-column.js (src/unnamed/part_000) -/

/-- Loop state of add-github-stars-column.js.  The JS `-1` sentinels are
`none`/an inert `0`: `insertIndex` is only ever read after having been set for
the current table. -/
structure AddColSt where
  inTable : Bool
  headerLineCount : Nat
  modifyThisTable : Bool
  githubColIndex : Option Nat
  starsColIndex : Option Nat
  insertIndex : Nat
  tablesModified : Nat
  rowsTouched : Nat
  deriving DecidableEq, Repr

/-- The initial state of the add-github-stars-column.js loop. -/
def addColInit : AddColSt := ⟨false, 0, false, none, none, 0, 0, 0⟩

/-- One iteration of the add-github-stars-column.js main loop (lines 62–152):
returns the updated state and the single line pushed to `out`.  A non-pipe
line resets the per-table state and passes through.  A header either marks
the table as skipped (stars column present) or is spliced at `insertIndex`
(after the Github column, else before the trailing artifact cell).  The
separator and data rows of a marked table are spliced at the same index. -/
def addColStep (s : AddColSt) (line : JStr) : AddColSt × JStr :=
  let s :=
    if !(isTableLine line) && s.inTable then
      { s with inTable := false, headerLineCount := 0, modifyThisTable := false,
               githubColIndex := none, starsColIndex := none, insertIndex := 0 }
    else s
  if !(isTableLine line) then (s, line)
  else if !s.inTable then
    let headerPartsRaw := splitChar '|' line
    let githubColIndex := githubColOf headerPartsRaw
    let starsColIndex := idxOf headerPartsRaw "GitHub Stars".data
    let s := { s with inTable := true, headerLineCount := 1,
                      githubColIndex, starsColIndex }
    match starsColIndex with
    | some _ => ({ s with modifyThisTable := false }, line)
    | none =>
      -- `Math.max(0, headerPartsRaw.length - 1)` is truncated subtraction
      let insertIndex :=
        match githubColIndex with
        | some g => g + 1
        | none => headerPartsRaw.length - 1
      ({ s with modifyThisTable := true, insertIndex,
                tablesModified := s.tablesModified + 1,
                rowsTouched := s.rowsTouched + 1 },
       joinChar '|' (spliceInsert insertIndex " GitHub Stars ".data headerPartsRaw))
  else
    let s := { s with headerLineCount := s.headerLineCount + 1 }
    if s.headerLineCount = 2 then
      if !s.modifyThisTable then (s, line)
      else
        let sepParts := splitChar '|' line
        -- `Math.max(0, sepParts.length - 2)` is truncated subtraction
        let refIndex :=
          match s.githubColIndex with
          | some g => g
          | none => sepParts.length - 2
        let sourceCell := orDashes (sepParts.get? refIndex)
        let newSepCell := ' ' :: separatorCellFrom (some sourceCell) ++ [' ']
        ({ s with rowsTouched := s.rowsTouched + 1 },
         joinChar '|' (spliceInsert s.insertIndex newSepCell sepParts))
    else
      if !s.modifyThisTable then (s, line)
      else
        ({ s with rowsTouched := s.rowsTouched + 1 },
         joinChar '|' (spliceInsert s.insertIndex [' '] (splitChar '|' line)))

/-- Run the add-github-stars-column.js loop from a state, collecting `out`. -/
def addColRunFrom (s : AddColSt) : List JStr → List JStr
  | [] => []
  | line :: rest =>
    let p := addColStep s line
    p.2 :: addColRunFrom p.1 rest

/-- The whole line transformation of add-github-stars-column.js. -/
def addColRun (lines : List JStr) : List JStr := addColRunFrom addColInit lines

/-! ### split-link-column.js -/

/-- Loop state of split-link-column.js: `tableHasLinkColumn` is the JS
`linkColumnIndex > -1`, i.e. `linkColumnIndex.isSome` here. -/
structure SplitSt where
  inTable : Bool
  headerLineCount : Nat
  linkColumnIndex : Option Nat
  changesCount : Nat
  deriving DecidableEq, Repr

/-- The initial state of the split-link-column.js loop. -/
def splitLinkInit : SplitSt := ⟨false, 0, none, 0⟩

/-- The regex test `/(https?:\/\/)?(www\.)?github\.com\//i.test(cell)`:
both prefix groups are optional, so the test holds exactly when
`github.com/` occurs (case-insensitively) anywhere in the cell. -/
def isGithubLink (mdCell : JStr) : Bool := containsCI "github.com/".data mdCell

/-- One iteration of the split-link-column.js main loop (lines 37–133):
returns the updated state and the single line pushed.  Resets on `## `
headers and on non-pipe lines; a header with an exact trimmed `Link` cell is
renamed to `Website` with a `Github` cell spliced after it; the separator and
every data row get a cell spliced at the same index, a data row's link moving
to whichever of the two cells matches `isGithubLink`. -/
def splitLinkStep (s : SplitSt) (line : JStr) : SplitSt × JStr :=
  let s :=
    if startsWithStr "## ".data line || (!(isTableLine line) && s.inTable) then
      { s with inTable := false, headerLineCount := 0, linkColumnIndex := none }
    else s
  if !(isTableLine line) then (s, line)
  else if !s.inTable then
    let headerPartsRaw := splitChar '|' line
    let linkColumnIndex := findIdxFrom (fun p => jsTrim p == "Link".data) headerPartsRaw
    let s := { s with inTable := true, headerLineCount := 1, linkColumnIndex }
    match linkColumnIndex with
    | none => (s, line)
    | some li =>
      ({ s with changesCount := s.changesCount + 1 },
       joinChar '|' (spliceInsert (li + 1) " Github ".data
         (headerPartsRaw.set li " Website ".data)))
  else
    let s := { s with headerLineCount := s.headerLineCount + 1 }
    if s.headerLineCount = 2 then
      match s.linkColumnIndex with
      | none => (s, line)
      | some li =>
        let sepParts := padTo (li + 2) [] (splitChar '|' line)
        let newSepCell := ' ' :: separatorCellFrom (some (sepParts.getD li [])) ++ [' ']
        ({ s with changesCount := s.changesCount + 1 },
         joinChar '|' (spliceInsert (li + 1) newSepCell sepParts))
    else
      match s.linkColumnIndex with
      | none => (s, line)
      | some li =>
        let parts := padTo (li + 2) [] (splitChar '|' line)
        let t := jsTrim (parts.getD li [])
        let websiteCell := if !t.isEmpty && !(isGithubLink t) then ' ' :: t ++ [' '] else [' ']
        let githubCell := if !t.isEmpty && isGithubLink t then ' ' :: t ++ [' '] else [' ']
        let s := if !t.isEmpty then { s with changesCount := s.changesCount + 1 } else s
        (s, joinChar '|' (spliceInsert (li + 1) githubCell (parts.set li websiteCell)))

/-- Run the split-link-column.js loop from a state, collecting the output. -/
def splitLinkRunFrom (s : SplitSt) : List JStr → List JStr
  | [] => []
  | line :: rest =>
    let p := splitLinkStep s line
    p.2 :: splitLinkRunFrom p.1 rest

/-- The whole line transformation of split-link-column.js. -/
def splitLinkRun (lines : List JStr) : List JStr := splitLinkRunFrom splitLinkInit lines

/-! ### fill-github-from-website.js -/

/-- A table as produced by `parseTables` of fill-github-from-website.js:
`websiteCol`/`githubCol` are resolved from the header when the table opens. -/
structure WTable where
  startIndex : Nat
  websiteCol : Option Nat
  githubCol : Option Nat
  rows : List Nat
  deriving DecidableEq, Repr

/-- A pending website-fetch update (fill-github-from-website.js line 240). -/
structure WUpdate where
  lineIdx : Nat
  websiteCol : Nat
  githubCol : Nat
  websiteUrl : JStr
  deriving DecidableEq, Repr

/-- `normalizeUrlMaybe` from fill-github-from-website.js (lines 54–66):
prepend `https://` when no scheme is present, then hand over to the host
environment's `new URL` parser/printer, modelled by the oracle `urlNorm`
(`none` = the constructor threw). -/
def normalizeUrlMaybe (urlNorm : JStr → Option JStr) (urlStr : Option JStr) :
    Option JStr :=
  match urlStr with
  | none => none
  | some u =>
    if u.isEmpty then none
    else
      urlNorm (if matchesCI "https://".data u || matchesCI "http://".data u then u
               else "https://".data ++ u)

/-- Per-table update collection of fill-github-from-website.js `main`
(lines 217–243): skip tables without both columns or with fewer than 3
lines; otherwise collect an update for every data row whose Github cell is
empty and whose Website cell holds a normalizable URL. -/
def collectWebsiteUpdates (urlNorm : JStr → Option JStr) (lines : List JStr)
    (t : WTable) : List WUpdate :=
  match t.websiteCol, t.githubCol with
  | some wc, some gc =>
    if t.rows.length < 3 then []
    else
      (t.rows.drop 2).foldl
        (fun ups lineIdx =>
          let parts := padTo (max wc gc + 1) [' '] (splitChar '|' (lines.getD lineIdx []))
          if (jsTrim (parts.getD gc [])).isEmpty then
            match normalizeUrlMaybe urlNorm (extractMarkdownUrl (parts.getD wc [])) with
            | none => ups
            | some websiteUrl => ups ++ [⟨lineIdx, wc, gc, websiteUrl⟩]
          else ups)
        []
  | _, _ => []

/-! ### Basic lemmas about the list/string machinery -/

theorem spliceInsert_length (n : Nat) (a : α) (l : List α) :
    (spliceInsert n a l).length = l.length + 1 := by
  simp [spliceInsert]
  omega

theorem mem_spliceInsert {x a : α} {n : Nat} {l : List α}
    (h : x ∈ spliceInsert n a l) : x = a ∨ x ∈ l := by
  simp only [spliceInsert, List.mem_append, List.mem_cons] at h
  rcases h with h | h | h
  · exact Or.inr (List.mem_of_mem_take h)
  · exact Or.inl h
  · exact Or.inr (List.mem_of_mem_drop h)

theorem splitChar_ne_nil (c : Char) (s : JStr) : splitChar c s ≠ [] := by
  induction s with
  | nil => simp [splitChar]
  | cons a rest ih =>
    by_cases h : a = c
    · simp [splitChar, h]
    · simp only [splitChar, if_neg h]
      cases hs : splitChar c rest with
      | nil => exact absurd hs ih
      | cons x t => simp

theorem splitChar_not_mem (c : Char) (s : JStr) :
    ∀ p ∈ splitChar c s, c ∉ p := by
  induction s with
  | nil =>
    intro p hp
    simp [splitChar] at hp
    simp [hp]
  | cons a rest ih =>
    intro p hp
    by_cases h : a = c
    · simp only [splitChar, if_pos h, List.mem_cons] at hp
      rcases hp with rfl | hp
      · simp
      · exact ih p hp
    · simp only [splitChar, if_neg h] at hp
      cases hs : splitChar c rest with
      | nil => exact absurd hs (splitChar_ne_nil c rest)
      | cons x t =>
        rw [hs] at hp
        rcases List.mem_cons.mp hp with rfl | hp
        · intro hc
          rcases List.mem_cons.mp hc with rfl | hc
          · exact h rfl
          · exact ih x (hs ▸ List.mem_cons_self x t) hc
        · exact ih p (hs ▸ List.mem_cons_of_mem x hp)

theorem splitChar_char_free {c : Char} {p : JStr} (h : c ∉ p) :
    splitChar c p = [p] := by
  induction p with
  | nil => rfl
  | cons a rest ih =>
    have ha : a ≠ c := fun hac => h (hac ▸ List.mem_cons_self a rest)
    have hr : c ∉ rest := fun hc => h (List.mem_cons_of_mem a hc)
    simp only [splitChar, if_neg ha, ih hr]

theorem splitChar_append (c : Char) {p : JStr} (h : c ∉ p) (t : JStr) :
    splitChar c (p ++ c :: t) = p :: splitChar c t := by
  induction p with
  | nil => simp [splitChar]
  | cons a rest ih =>
    have ha : a ≠ c := fun hac => h (hac ▸ List.mem_cons_self a rest)
    have hr : c ∉ rest := fun hc => h (List.mem_cons_of_mem a hc)
    simp only [List.cons_append, splitChar, if_neg ha, List.append_eq]
    rw [ih hr]

theorem joinChar_cons (c : Char) (p : JStr) {ps : List JStr} (h : ps ≠ []) :
    joinChar c (p :: ps) = p ++ c :: joinChar c ps := by
  cases ps with
  | nil => exact absurd rfl h
  | cons q qs => rfl

theorem splitChar_joinChar (c : Char) :
    ∀ (ps : List JStr), ps ≠ [] → (∀ p ∈ ps, c ∉ p) →
      splitChar c (joinChar c ps) = ps
  | [], h, _ => absurd rfl h
  | [p], _, hf => by
    simpa [joinChar] using splitChar_char_free (hf p (by simp))
  | p :: q :: ps, _, hf => by
    rw [joinChar_cons c p (by simp), splitChar_append c (hf p (by simp))]
    rw [splitChar_joinChar c (q :: ps) (by simp) (fun x hx => hf x (List.mem_cons_of_mem p hx))]

theorem getD_set_self {l : List α} {i : Nat} (h : i < l.length) (a d : α) :
    (l.set i a).getD i d = a := by
  simp [List.getD_eq_getElem?_getD, List.getElem?_set_self h]

theorem getD_set_ne {l : List α} {i j : Nat} (h : i ≠ j) (a d : α) :
    (l.set i a).getD j d = l.getD j d := by
  simp [List.getD_eq_getElem?_getD, List.getElem?_set_ne h]

theorem findIdxFrom_lt_length {p : JStr → Bool} :
    ∀ {l : List JStr} {i : Nat}, findIdxFrom p l = some i → i < l.length := by
  intro l
  induction l with
  | nil => intro i h; simp [findIdxFrom] at h
  | cons x xs ih =>
    intro i h
    by_cases hp : p x
    · simp only [findIdxFrom, if_pos hp, Option.some.injEq] at h
      simp [← h]
    · simp only [findIdxFrom, if_neg hp, Option.map_eq_some'] at h
      obtain ⟨j, hj, rfl⟩ := h
      have := ih hj
      simp only [List.length_cons]
      omega

theorem idxOf_lt_length {parts : List JStr} {name : JStr} {i : Nat}
    (h : idxOf parts name = some i) : i < parts.length :=
  findIdxFrom_lt_length h

theorem githubColOf_lt_length {parts : List JStr} {g : Nat}
    (h : githubColOf parts = some g) : g < parts.length := by
  unfold githubColOf at h
  cases h1 : idxOf parts "Github".data with
  | some x =>
    rw [h1] at h
    injection h with hx
    exact hx ▸ idxOf_lt_length h1
  | none =>
    rw [h1] at h
    exact idxOf_lt_length h

theorem sepCell_pipe_free (c : Option JStr) : '|' ∉ separatorCellFrom c := by
  unfold separatorCellFrom
  by_cases hl : (jsTrim (c.getD [])).head? = some ':' <;>
    by_cases hr : (jsTrim (c.getD [])).getLast? = some ':' <;>
      simp [hl, hr]

/-! ### Lemmas about in-place line updates -/

theorem foldl_setWith_length (g : JStr → JStr) (ds : List Nat) :
    ∀ ls : List JStr,
      (ds.foldl (fun ls ri => ls.set ri (g (ls.getD ri []))) ls).length = ls.length := by
  induction ds with
  | nil => intro ls; rfl
  | cons d ds ih =>
    intro ls
    simp only [List.foldl_cons]
    rw [ih]
    exact List.length_set ls d _

theorem foldl_setWith_getElem?_not_mem (g : JStr → JStr) (ds : List Nat) :
    ∀ (ls : List JStr) (j : Nat), j ∉ ds →
      (ds.foldl (fun ls ri => ls.set ri (g (ls.getD ri []))) ls)[j]? = ls[j]? := by
  induction ds with
  | nil => intro ls j _; rfl
  | cons d ds ih =>
    intro ls j hj
    simp only [List.foldl_cons]
    rw [ih _ _ (fun h => hj (List.mem_cons_of_mem d h))]
    exact List.getElem?_set_ne (fun h => hj (by rw [← h]; exact List.mem_cons_self d ds))

theorem foldl_setWith_getD_mem (g : JStr → JStr) (ds : List Nat) (hnd : ds.Nodup) :
    ∀ (ls : List JStr) (r : Nat), r ∈ ds → r < ls.length →
      (ds.foldl (fun ls ri => ls.set ri (g (ls.getD ri []))) ls).getD r [] =
        g (ls.getD r []) := by
  induction ds with
  | nil => intro ls r hr; simp at hr
  | cons d ds ih =>
    intro ls r hr hlt
    rcases List.nodup_cons.mp hnd with ⟨hd, hnd'⟩
    simp only [List.foldl_cons]
    rcases List.mem_cons.mp hr with rfl | hr'
    · rw [List.getD_eq_getElem?_getD,
        foldl_setWith_getElem?_not_mem g ds _ _ hd,
        List.getElem?_set_self hlt]
      rfl
    · have hne : d ≠ r := fun h => hd (h ▸ hr')
      rw [ih hnd' _ _ hr' (by rw [List.length_set]; exact hlt),
        getD_set_ne hne]

theorem foldl_setPair_length (f : β → JStr) (ps : List (Nat × β)) :
    ∀ ls : List JStr,
      (ps.foldl (fun ls p => ls.set p.1 (f p.2)) ls).length = ls.length := by
  induction ps with
  | nil => intro ls; rfl
  | cons p ps ih =>
    intro ls
    simp only [List.foldl_cons]
    rw [ih]
    exact List.length_set ls p.1 _

theorem foldl_setPair_getElem?_not_mem (f : β → JStr) (ps : List (Nat × β)) :
    ∀ (ls : List JStr) (j : Nat), (∀ p ∈ ps, p.1 ≠ j) →
      (ps.foldl (fun ls p => ls.set p.1 (f p.2)) ls)[j]? = ls[j]? := by
  induction ps with
  | nil => intro ls j _; rfl
  | cons p ps ih =>
    intro ls j hj
    simp only [List.foldl_cons]
    rw [ih _ _ (fun q hq => hj q (List.mem_cons_of_mem p hq))]
    exact List.getElem?_set_ne (hj p (List.mem_cons_self p ps))

theorem fst_mem_of_mem_zip {l1 : List α} {l2 : List β} {p : α × β}
    (h : p ∈ l1.zip l2) : p.1 ∈ l1 := by
  obtain ⟨a, b⟩ := p
  exact (List.of_mem_zip h).1

theorem foldl_setPair_map_getD (f : β → JStr) :
    ∀ (idxs : List Nat) (vs : List β) (ls : List JStr),
      idxs.Nodup → idxs.length = vs.length → (∀ r ∈ idxs, r < ls.length) →
      idxs.map (fun r =>
        ((idxs.zip vs).foldl (fun ls p => ls.set p.1 (f p.2)) ls).getD r []) =
        vs.map f := by
  intro idxs
  induction idxs with
  | nil =>
    intro vs ls _ hlen _
    cases vs with
    | nil => rfl
    | cons v vs => simp at hlen
  | cons r idxs ih =>
    intro vs ls hnd hlen hb
    cases vs with
    | nil => simp at hlen
    | cons v vs =>
      rcases List.nodup_cons.mp hnd with ⟨hr, hnd'⟩
      have hrl : r < ls.length := hb r (List.mem_cons_self r idxs)
      have hzip : ((r, v) :: idxs.zip vs).foldl (fun ls p => ls.set p.1 (f p.2)) ls =
          (idxs.zip vs).foldl (fun ls p => ls.set p.1 (f p.2)) (ls.set r (f v)) := by
        simp [List.foldl_cons]
      simp only [List.zip_cons_cons, List.map_cons, hzip]
      have hhead :
          ((idxs.zip vs).foldl (fun ls p => ls.set p.1 (f p.2)) (ls.set r (f v))).getD r [] =
            f v := by
        rw [List.getD_eq_getElem?_getD,
          foldl_setPair_getElem?_not_mem f (idxs.zip vs) _ _
            (fun p hp hpr => hr (by rw [← hpr]; exact fst_mem_of_mem_zip hp)),
          List.getElem?_set_self hrl]
        rfl
      have htail :
          idxs.map (fun x =>
            ((idxs.zip vs).foldl (fun ls p => ls.set p.1 (f p.2)) (ls.set r (f v))).getD x []) =
          vs.map f := by
        apply ih vs (ls.set r (f v)) hnd' (by simpa using hlen)
        intro x hx
        rw [List.length_set]
        exact hb x (List.mem_cons_of_mem r hx)
      rw [hhead, htail]

/-! ### findTables: every collected index is a pipe line -/

theorem appendLast_mem {ts : List (List Nat)} {i : Nat} {t : List Nat}
    (ht : t ∈ findTablesAux.appendLast ts i) {r : Nat} (hr : r ∈ t) :
    (∃ t₁ ∈ ts, r ∈ t₁) ∨ r = i := by
  induction ts generalizing t with
  | nil =>
    simp [findTablesAux.appendLast] at ht
    subst ht
    simp at hr
    exact Or.inr hr
  | cons t0 ts ih =>
    cases ts with
    | nil =>
      simp [findTablesAux.appendLast] at ht
      subst ht
      rcases List.mem_append.mp hr with h | h
      · exact Or.inl ⟨t0, by simp, h⟩
      · simp at h
        exact Or.inr h
    | cons t1 ts' =>
      simp only [findTablesAux.appendLast, List.mem_cons] at ht
      rcases ht with rfl | ht
      · exact Or.inl ⟨t, by simp, hr⟩
      · rcases ih ht hr with ⟨t₁, h1, h2⟩ | h
        · exact Or.inl ⟨t₁, List.mem_cons_of_mem _ h1, h2⟩
        · exact Or.inr h

theorem findTablesAux_mem :
    ∀ (ls : List JStr) (i : Nat) (inTable : Bool) (ts : List (List Nat))
      (t : List Nat), t ∈ findTablesAux i ls inTable ts → ∀ r ∈ t,
      (∃ t₁ ∈ ts, r ∈ t₁) ∨
        (i ≤ r ∧ r < i + ls.length ∧ isTableLine (ls.getD (r - i) []) = true) := by
  intro ls
  induction ls with
  | nil =>
    intro i inTable ts t ht r hr
    exact Or.inl ⟨t, ht, hr⟩
  | cons line rest ih =>
    intro i inTable ts t ht r hr
    by_cases hp : isTableLine line
    · cases inTable with
      | true =>
        simp only [findTablesAux, if_pos hp] at ht
        rcases ih (i + 1) true _ t ht r hr with ⟨t₁, h1, h2⟩ | ⟨h1, h2, h3⟩
        · rcases appendLast_mem h1 h2 with h | rfl
          · exact Or.inl h
          · exact Or.inr ⟨le_refl r, by simp, by simpa using hp⟩
        · refine Or.inr ⟨by omega, by simp; omega, ?_⟩
          have : r - i = (r - (i + 1)) + 1 := by omega
          rw [this]
          simpa using h3
      | false =>
        simp only [findTablesAux, if_pos hp] at ht
        rcases ih (i + 1) true _ t ht r hr with ⟨t₁, h1, h2⟩ | ⟨h1, h2, h3⟩
        · rcases List.mem_append.mp h1 with h | h
          · exact Or.inl ⟨t₁, h, h2⟩
          · simp at h
            subst h
            simp at h2
            subst h2
            exact Or.inr ⟨le_refl r, by simp, by simpa using hp⟩
        · refine Or.inr ⟨by omega, by simp; omega, ?_⟩
          have : r - i = (r - (i + 1)) + 1 := by omega
          rw [this]
          simpa using h3
    · simp only [findTablesAux, if_neg hp] at ht
      rcases ih (i + 1) false _ t ht r hr with ⟨t₁, h1, h2⟩ | ⟨h1, h2, h3⟩
      · exact Or.inl ⟨t₁, h1, h2⟩
      · refine Or.inr ⟨by omega, by simp; omega, ?_⟩
        have : r - i = (r - (i + 1)) + 1 := by omega
        rw [this]
        simpa using h3

theorem findTables_mem_pipe {lines : List JStr} {t : List Nat}
    (ht : t ∈ findTables lines) {r : Nat} (hr : r ∈ t) :
    isTableLine (lines.getD r []) = true := by
  rcases findTablesAux_mem lines 0 false [] t ht r hr with ⟨t₁, h1, _⟩ | ⟨_, _, h3⟩
  · simp at h1
  · simpa using h3

/-! ### JNum comparisons denote rational comparisons -/

theorem JNum.ble_iff (a b : JNum) : JNum.ble a b = true ↔ a.toRat ≤ b.toRat := by
  unfold JNum.ble JNum.toRat
  rw [div_le_div_iff₀ (by positivity) (by positivity)]
  rw [decide_eq_true_eq]
  constructor
  · intro h
    exact_mod_cast h
  · intro h
    exact_mod_cast h

theorem JNum.beq_iff (a b : JNum) : JNum.beq a b = true ↔ a.toRat = b.toRat := by
  unfold JNum.beq JNum.toRat
  rw [div_eq_div_iff (by positivity) (by positivity)]
  rw [decide_eq_true_eq]
  constructor
  · intro h
    exact_mod_cast h
  · intro h
    exact_mod_cast h

theorem JSNum.ble_iff_keyVal (a b : JSNum) : JSNum.ble a b = true ↔ a.keyVal ≤ b.keyVal := by
  cases a <;> cases b <;>
    simp [JSNum.ble, JSNum.keyVal, JNum.ble_iff]

theorem JSNum.beq_iff_keyVal (a b : JSNum) : JSNum.beq a b = true ↔ a.keyVal = b.keyVal := by
  cases a <;> cases b <;>
    simp [JSNum.beq, JSNum.keyVal, JNum.beq_iff]

/-! ### Sorting lemmas -/

theorem mem_insSorted (le : α → α → Bool) (x : α) :
    ∀ (l : List α) (z : α), z ∈ insSorted le x l → z = x ∨ z ∈ l := by
  intro l
  induction l with
  | nil => intro z hz; simpa [insSorted] using hz
  | cons y ys ih =>
    intro z hz
    by_cases h : le y x
    · simp only [insSorted, if_pos h, List.mem_cons] at hz
      rcases hz with rfl | hz
      · exact Or.inr (List.mem_cons_self z ys)
      · rcases ih z hz with h' | h'
        · exact Or.inl h'
        · exact Or.inr (List.mem_cons_of_mem y h')
    · simp only [insSorted, if_neg h, List.mem_cons] at hz
      rcases hz with rfl | hz
      · exact Or.inl rfl
      · exact Or.inr (List.mem_cons.mpr hz)

theorem insSorted_perm (le : α → α → Bool) (x : α) :
    ∀ l : List α, (insSorted le x l).Perm (x :: l) := by
  intro l
  induction l with
  | nil => simp [insSorted]
  | cons y ys ih =>
    by_cases h : le y x
    · simp only [insSorted, if_pos h]
      exact ((List.perm_cons y).mpr ih).trans (List.Perm.swap x y ys)
    · simp [insSorted, if_neg h]

theorem sortByLE_perm (le : α → α → Bool) :
    ∀ l : List α, (sortByLE le l).Perm l := by
  intro l
  induction l with
  | nil => simp [sortByLE]
  | cons x xs ih =>
    exact (insSorted_perm le x _).trans ((List.perm_cons x).mpr ih)

theorem sortByLE_length (le : α → α → Bool) (l : List α) :
    (sortByLE le l).length = l.length :=
  (sortByLE_perm le l).length_eq

theorem insSorted_pairwise (le : α → α → Bool)
    (htot : ∀ a b, le a b = true ∨ le b a = true)
    (htrans : ∀ a b c, le a b = true → le b c = true → le a c = true)
    (x : α) :
    ∀ l : List α, List.Pairwise (fun a b => le a b = true) l →
      List.Pairwise (fun a b => le a b = true) (insSorted le x l) := by
  intro l
  induction l with
  | nil => intro _; simp [insSorted]
  | cons y ys ih =>
    intro hp
    rcases List.pairwise_cons.mp hp with ⟨hy, hys⟩
    by_cases h : le y x
    · simp only [insSorted, if_pos h]
      refine List.pairwise_cons.mpr ⟨?_, ih hys⟩
      intro z hz
      rcases mem_insSorted le x _ z hz with rfl | hz'
      · exact h
      · exact hy z hz'
    · simp only [insSorted, if_neg h]
      have hxy : le x y = true := by
        rcases htot x y with h' | h'
        · exact h'
        · exact absurd h' h
      refine List.pairwise_cons.mpr ⟨?_, hp⟩
      intro z hz
      rcases List.mem_cons.mp hz with rfl | hz'
      · exact hxy
      · exact htrans x y z hxy (hy z hz')

theorem sortByLE_pairwise (le : α → α → Bool)
    (htot : ∀ a b, le a b = true ∨ le b a = true)
    (htrans : ∀ a b c, le a b = true → le b c = true → le a c = true) :
    ∀ l : List α, List.Pairwise (fun a b => le a b = true) (sortByLE le l) := by
  intro l
  induction l with
  | nil => simp [sortByLE]
  | cons x xs ih => exact insSorted_pairwise le htot htrans x _ ih

/-- The row ordering claim C3 describes, on the denoted keys: numeric keys
descending, unparseable keys after every numeric key, null/null pairs and
numeric ties in original relative order (increasing original position). -/
def specRowLE (a b : SortEntry) : Prop :=
  match a.stars, b.stars with
  | none, none => a.i ≤ b.i
  | none, some _ => False
  | some _, none => True
  | some x, some y => y.keyVal < x.keyVal ∨ (y.keyVal = x.keyVal ∧ a.i ≤ b.i)

theorem entryLE_some {a b : SortEntry} {x y : JSNum} (ha : a.stars = some x)
    (hb : b.stars = some y) :
    entryLE a b = true ↔ (y.keyVal < x.keyVal ∨ (y.keyVal = x.keyVal ∧ a.i ≤ b.i)) := by
  unfold entryLE
  rw [ha, hb]
  by_cases hbe : JSNum.beq y x
  · have heq : y.keyVal = x.keyVal := (JSNum.beq_iff_keyVal y x).mp hbe
    simp [hbe, heq]
  · have hne : y.keyVal ≠ x.keyVal := fun h => hbe ((JSNum.beq_iff_keyVal y x).mpr h)
    simp only [hbe, Bool.not_false, if_true]
    rw [JSNum.ble_iff_keyVal]
    constructor
    · intro h
      exact Or.inl (lt_of_le_of_ne h hne)
    · rintro (h | ⟨h, _⟩)
      · exact le_of_lt h
      · exact absurd h hne

theorem entryLE_none_none {a b : SortEntry} (ha : a.stars = none)
    (hb : b.stars = none) : entryLE a b = true ↔ a.i ≤ b.i := by
  unfold entryLE
  rw [ha, hb]
  simp

theorem entryLE_none_some {a b : SortEntry} {y : JSNum} (ha : a.stars = none)
    (hb : b.stars = some y) : entryLE a b = false := by
  unfold entryLE
  rw [ha, hb]

theorem entryLE_some_none {a b : SortEntry} {x : JSNum} (ha : a.stars = some x)
    (hb : b.stars = none) : entryLE a b = true := by
  unfold entryLE
  rw [ha, hb]

theorem entryLE_total : ∀ a b : SortEntry, entryLE a b = true ∨ entryLE b a = true := by
  intro a b
  cases ha : a.stars with
  | none =>
    cases hb : b.stars with
    | none =>
      rw [entryLE_none_none ha hb, entryLE_none_none hb ha]
      omega
    | some y => exact Or.inr (entryLE_some_none hb ha)
  | some x =>
    cases hb : b.stars with
    | none => exact Or.inl (entryLE_some_none ha hb)
    | some y =>
      rw [entryLE_some ha hb, entryLE_some hb ha]
      rcases lt_trichotomy x.keyVal y.keyVal with h | h | h
      · exact Or.inr (Or.inl h)
      · rcases Nat.le_total a.i b.i with hi | hi
        · exact Or.inl (Or.inr ⟨h.symm, hi⟩)
        · exact Or.inr (Or.inr ⟨h, hi⟩)
      · exact Or.inl (Or.inl h)

theorem entryLE_trans : ∀ a b c : SortEntry,
    entryLE a b = true → entryLE b c = true → entryLE a c = true := by
  intro a b c hab hbc
  cases ha : a.stars with
  | none =>
    cases hb : b.stars with
    | none =>
      cases hc : c.stars with
      | none =>
        rw [entryLE_none_none ha hb] at hab
        rw [entryLE_none_none hb hc] at hbc
        rw [entryLE_none_none ha hc]
        omega
      | some z =>
        rw [entryLE_none_some hb hc] at hbc
        exact absurd hbc (by simp)
    | some y =>
      rw [entryLE_none_some ha hb] at hab
      exact absurd hab (by simp)
  | some x =>
    cases hc : c.stars with
    | none => exact entryLE_some_none ha hc
    | some z =>
      cases hb : b.stars with
      | none =>
        rw [entryLE_none_some hb hc] at hbc
        exact absurd hbc (by simp)
      | some y =>
        rw [entryLE_some ha hb] at hab
        rw [entryLE_some hb hc] at hbc
        rw [entryLE_some ha hc]
        rcases hab with h1 | ⟨h1, hi1⟩ <;> rcases hbc with h2 | ⟨h2, hi2⟩
        · exact Or.inl (h2.trans h1)
        · exact Or.inl (h2 ▸ h1)
        · exact Or.inl (h1 ▸ h2)
        · exact Or.inr ⟨h2.trans h1, hi1.trans hi2⟩

theorem entryLE_spec {a b : SortEntry} (h : entryLE a b = true) : specRowLE a b := by
  cases ha : a.stars with
  | none =>
    cases hb : b.stars with
    | none =>
      rw [entryLE_none_none ha hb] at h
      simpa [specRowLE, ha, hb] using h
    | some y =>
      rw [entryLE_none_some ha hb] at h
      exact absurd h (by simp)
  | some x =>
    cases hb : b.stars with
    | none => simp [specRowLE, ha, hb]
    | some y =>
      rw [entryLE_some ha hb] at h
      simpa [specRowLE, ha, hb] using h

/-! ### Evaluation lemmas for the sorting pass -/

theorem map_enumFrom_snd (g : α → β) :
    ∀ (l : List α) (n : Nat), (List.enumFrom n l).map (fun p => g p.2) = l.map g := by
  intro l
  induction l with
  | nil => intro n; rfl
  | cons x xs ih =>
    intro n
    simp only [List.enumFrom, List.map_cons]
    rw [ih]

theorem map_enum_snd (g : α → β) (l : List α) :
    l.enum.map (fun p => g p.2) = l.map g :=
  map_enumFrom_snd g l 0

theorem tableEntries_length (lines : List JStr) (ds : List Nat) (sc : Nat) :
    (tableEntries lines ds sc).length = ds.length := by
  simp [tableEntries]

theorem tableEntries_map_line (lines : List JStr) (ds : List Nat) (sc : Nat) :
    (tableEntries lines ds sc).map SortEntry.line = ds.map (fun r => lines.getD r []) := by
  unfold tableEntries
  rw [List.map_map]
  exact map_enum_snd (fun r => lines.getD r []) ds

theorem processSortTable_cases (lines : List JStr) (n : Nat) (rows : List Nat) :
    processSortTable (lines, n) rows = (lines, n) ∨
    (∃ sc, idxOf (splitChar '|' (lines.getD (rows.headD 0) [])) "GitHub Stars".data
        = some sc ∧
      processSortTable (lines, n) rows =
        (((rows.drop 2).zip
            (sortByLE entryLE (tableEntries lines (rows.drop 2) sc))).foldl
          (fun ls p => ls.set p.1 p.2.line) lines, n + 1)) := by
  unfold processSortTable
  by_cases h3 : rows.length < 3
  · rw [if_pos h3]
    exact Or.inl rfl
  · rw [if_neg h3]
    dsimp only
    cases hsc : idxOf (splitChar '|' (lines.getD (rows.headD 0) [])) "GitHub Stars".data with
    | none => exact Or.inl rfl
    | some sc =>
      dsimp only
      by_cases hde : (rows.drop 2).isEmpty
      · rw [if_pos hde]
        exact Or.inl rfl
      · rw [if_neg hde]
        by_cases hch : ((sortByLE entryLE (tableEntries lines (rows.drop 2) sc)).zip
            (tableEntries lines (rows.drop 2) sc)).any (fun p => !(p.1.ri == p.2.ri))
        · rw [hch]
          simp only [Bool.not_true, if_false]
          exact Or.inr ⟨sc, rfl, rfl⟩
        · rw [Bool.not_eq_true] at hch
          rw [hch]
          simp only [Bool.not_false, if_true]
          exact Or.inl trivial

theorem processSortTable_length (st : List JStr × Nat) (rows : List Nat) :
    (processSortTable st rows).1.length = st.1.length := by
  rcases processSortTable_cases st.1 st.2 rows with h | ⟨sc, _, h⟩
  · rw [h]
  · rw [h]
    exact foldl_setPair_length SortEntry.line _ _

theorem processSortTable_frame (st : List JStr × Nat) (rows : List Nat) (j : Nat)
    (hj : j ∉ rows.drop 2) :
    (processSortTable st rows).1[j]? = st.1[j]? := by
  rcases processSortTable_cases st.1 st.2 rows with h | ⟨sc, _, h⟩
  · rw [h]
  · rw [h]
    exact foldl_setPair_getElem?_not_mem SortEntry.line _ _ _
      (fun p hp hpj => hj (hpj ▸ fst_mem_of_mem_zip hp))

/-! ### Claim theorems: sorting (C3, C10) and short-table skips (C9) -/

/-- A concrete document: one table whose data rows carry star cells
`150, x, 300, y, 150` (so keys `150, none, 300, none, 150`). -/
def sampleSortDoc : List JStr :=
  ["| Name | GitHub Stars |".data, "| --- | --- |".data,
   "| a | 150 |".data, "| b | x |".data, "| c | 300 |".data,
   "| d | y |".data, "| e | 150 |".data]

/-- C3: for every table, the sorted entry list is a permutation of its
entries arranged by the claimed order — numeric keys descending, unparseable
keys after all numeric keys, with null pairs and numeric ties in original
relative order; in particular the table with star keys
`[150, null, 300, null, 150]` is reordered to
`[300, 150 (first), 150 (second), null (first), null (second)]`. -/
theorem C3_sort_order :
    (∀ (lines : List JStr) (dataRowIndexes : List Nat) (starsCol : Nat),
      (sortByLE entryLE (tableEntries lines dataRowIndexes starsCol)).Perm
          (tableEntries lines dataRowIndexes starsCol) ∧
        List.Pairwise specRowLE
          (sortByLE entryLE (tableEntries lines dataRowIndexes starsCol))) ∧
    sortTablesLines sampleSortDoc =
      ["| Name | GitHub Stars |".data, "| --- | --- |".data,
       "| c | 300 |".data, "| a | 150 |".data, "| e | 150 |".data,
       "| b | x |".data, "| d | y |".data] := by
  constructor
  · intro lines ds sc
    refine ⟨sortByLE_perm _ _, ?_⟩
    exact (sortByLE_pairwise entryLE entryLE_total entryLE_trans
      (tableEntries lines ds sc)).imp (fun h => entryLE_spec h)
  · decide

/-- C10: for every table, the sorting pass preserves document length (so the
data rows occupy the same absolute positions), permutes exactly the data-row
line contents (none lost, duplicated or altered), and leaves every position
outside the data rows — in particular the header and separator lines —
unchanged. -/
theorem C10_sort_permutes_rows (lines : List JStr) (n : Nat) (rows : List Nat)
    (hnd : rows.Nodup) (hb : ∀ r ∈ rows.drop 2, r < lines.length) :
    (processSortTable (lines, n) rows).1.length = lines.length ∧
    ((rows.drop 2).map (fun r => (processSortTable (lines, n) rows).1.getD r [])).Perm
      ((rows.drop 2).map (fun r => lines.getD r [])) ∧
    ∀ j, j ∉ rows.drop 2 → (processSortTable (lines, n) rows).1[j]? = lines[j]? := by
  refine ⟨processSortTable_length (lines, n) rows, ?_,
    fun j hj => processSortTable_frame (lines, n) rows j hj⟩
  rcases processSortTable_cases lines n rows with h | ⟨sc, hsc, h⟩
  · rw [h]
  · rw [h]
    have hnd2 : (rows.drop 2).Nodup := (List.drop_sublist 2 rows).nodup hnd
    have hlen : (rows.drop 2).length =
        (sortByLE entryLE (tableEntries lines (rows.drop 2) sc)).length := by
      rw [sortByLE_length, tableEntries_length]
    rw [foldl_setPair_map_getD SortEntry.line (rows.drop 2)
      (sortByLE entryLE (tableEntries lines (rows.drop 2) sc)) lines hnd2 hlen hb]
    exact (tableEntries_map_line lines (rows.drop 2) sc) ▸
      ((sortByLE_perm entryLE _).map SortEntry.line)

/-- Witness for C10 on the concrete `sampleSortDoc` table. -/
theorem C10_sort_permutes_rows_witness :
    ([0, 1, 2, 3, 4, 5, 6] : List Nat).Nodup ∧
    (∀ r ∈ ([0, 1, 2, 3, 4, 5, 6] : List Nat).drop 2, r < sampleSortDoc.length) ∧
    ((processSortTable (sampleSortDoc, 0) [0, 1, 2, 3, 4, 5, 6]).1.length =
        sampleSortDoc.length ∧
      ((([0, 1, 2, 3, 4, 5, 6] : List Nat).drop 2).map
          (fun r => (processSortTable (sampleSortDoc, 0) [0, 1, 2, 3, 4, 5, 6]).1.getD r [])).Perm
        ((([0, 1, 2, 3, 4, 5, 6] : List Nat).drop 2).map (fun r => sampleSortDoc.getD r [])) ∧
      ∀ j, j ∉ ([0, 1, 2, 3, 4, 5, 6] : List Nat).drop 2 →
        (processSortTable (sampleSortDoc, 0) [0, 1, 2, 3, 4, 5, 6]).1[j]? =
          sampleSortDoc[j]?) :=
  ⟨by decide, by decide,
    C10_sort_permutes_rows sampleSortDoc 0 [0, 1, 2, 3, 4, 5, 6] (by decide) (by decide)⟩

/-- C9: a table with fewer than 3 lines is skipped entirely by every
operation requiring data rows: the star-filling pass returns its state
unchanged (no line edits, no jobs, no touched count), the sorting pass
returns its state unchanged, and the GitHub-link discovery collects no
updates; all three are total functions, so no error is raised. -/
theorem C9_short_table_skipped (rows : List Nat) (h : rows.length < 3) :
    (∀ st : List JStr × List Job × Nat, processStarsTable st rows = st) ∧
    (∀ st : List JStr × Nat, processSortTable st rows = st) ∧
    (∀ (urlNorm : JStr → Option JStr) (lines : List JStr) (t : WTable),
      t.rows = rows → collectWebsiteUpdates urlNorm lines t = []) := by
  refine ⟨?_, ?_, ?_⟩
  · intro st
    unfold processStarsTable
    rw [if_pos h]
  · intro st
    unfold processSortTable
    rw [if_pos h]
  · intro urlNorm lines t ht
    unfold collectWebsiteUpdates
    cases hw : t.websiteCol with
    | none => rfl
    | some wc =>
      cases hg : t.githubCol with
      | none => rfl
      | some gc =>
        dsimp only
        rw [ht, if_pos h]

/-- Witness for C9 on a two-line table. -/
theorem C9_short_table_skipped_witness :
    ([4, 5] : List Nat).length < 3 ∧
    processStarsTable (["| a |".data], [], 7) [4, 5] = (["| a |".data], [], 7) ∧
    processSortTable (["| a |".data], 2) [4, 5] = (["| a |".data], 2) ∧
    collectWebsiteUpdates (fun _ => none) ["| a |".data]
      ⟨0, some 1, some 2, [4, 5]⟩ = [] := by
  have h := C9_short_table_skipped [4, 5] (by decide)
  exact ⟨by decide, h.1 _, h.2.1 _, h.2.2 _ _ _ rfl⟩

/-! ### Frame lemmas: non-table lines pass through unchanged -/

theorem addColStep_snd_nonpipe (s : AddColSt) (line : JStr)
    (h : isTableLine line = false) : (addColStep s line).2 = line := by
  unfold addColStep
  rw [h]
  simp

theorem addColRunFrom_length (ls : List JStr) :
    ∀ s : AddColSt, (addColRunFrom s ls).length = ls.length := by
  induction ls with
  | nil => intro s; rfl
  | cons line rest ih =>
    intro s
    simp only [addColRunFrom, List.length_cons]
    rw [ih]

theorem addColRunFrom_getElem?_nonpipe (ls : List JStr) :
    ∀ (s : AddColSt) (j : Nat), isTableLine (ls.getD j []) = false →
      (addColRunFrom s ls)[j]? = ls[j]? := by
  induction ls with
  | nil => intro s j _; rfl
  | cons line rest ih =>
    intro s j hj
    cases j with
    | zero =>
      simp only [List.getD_cons_zero] at hj
      simp only [addColRunFrom, List.getElem?_cons_zero]
      rw [addColStep_snd_nonpipe s line hj]
    | succ j =>
      simp only [List.getD_cons_succ] at hj
      simp only [addColRunFrom, List.getElem?_cons_succ]
      exact ih _ j hj

theorem splitLinkStep_snd_nonpipe (s : SplitSt) (line : JStr)
    (h : isTableLine line = false) : (splitLinkStep s line).2 = line := by
  unfold splitLinkStep
  rw [h]
  simp

theorem splitLinkRunFrom_length (ls : List JStr) :
    ∀ s : SplitSt, (splitLinkRunFrom s ls).length = ls.length := by
  induction ls with
  | nil => intro s; rfl
  | cons line rest ih =>
    intro s
    simp only [splitLinkRunFrom, List.length_cons]
    rw [ih]

theorem splitLinkRunFrom_getElem?_nonpipe (ls : List JStr) :
    ∀ (s : SplitSt) (j : Nat), isTableLine (ls.getD j []) = false →
      (splitLinkRunFrom s ls)[j]? = ls[j]? := by
  induction ls with
  | nil => intro s j _; rfl
  | cons line rest ih =>
    intro s j hj
    cases j with
    | zero =>
      simp only [List.getD_cons_zero] at hj
      simp only [splitLinkRunFrom, List.getElem?_cons_zero]
      rw [splitLinkStep_snd_nonpipe s line hj]
    | succ j =>
      simp only [List.getD_cons_succ] at hj
      simp only [splitLinkRunFrom, List.getElem?_cons_succ]
      exact ih _ j hj

theorem sortFold_getElem?_frame (j : Nat) :
    ∀ (ts : List (List Nat)) (st : List JStr × Nat),
      (∀ rows ∈ ts, j ∉ rows.drop 2) →
      (ts.foldl processSortTable st).1[j]? = st.1[j]? := by
  intro ts
  induction ts with
  | nil => intro st _; rfl
  | cons rows ts ih =>
    intro st hj
    simp only [List.foldl_cons]
    rw [ih _ (fun r hr => hj r (List.mem_cons_of_mem rows hr))]
    exact processSortTable_frame st rows j (hj rows (List.mem_cons_self rows ts))

theorem sortFold_length :
    ∀ (ts : List (List Nat)) (st : List JStr × Nat),
      (ts.foldl processSortTable st).1.length = st.1.length := by
  intro ts
  induction ts with
  | nil => intro st; rfl
  | cons rows ts ih =>
    intro st
    simp only [List.foldl_cons]
    rw [ih]
    exact processSortTable_length st rows

/-- C4: under the column-insert transformation (add-github-stars-column.js),
the column-split transformation (split-link-column.js), and the row-sort
transformation (sort-tables-by-stars.js), the output has exactly one line per
input line, and every line that is not a table line (does not start with
`|`, hence belongs to no detected table) is returned unchanged at its
original position. -/
theorem C4_frame_nontable_lines (lines : List JStr) :
    ((addColRun lines).length = lines.length ∧
      ∀ j, isTableLine (lines.getD j []) = false →
        (addColRun lines)[j]? = lines[j]?) ∧
    ((splitLinkRun lines).length = lines.length ∧
      ∀ j, isTableLine (lines.getD j []) = false →
        (splitLinkRun lines)[j]? = lines[j]?) ∧
    ((sortTablesLines lines).length = lines.length ∧
      ∀ j, isTableLine (lines.getD j []) = false →
        (sortTablesLines lines)[j]? = lines[j]?) := by
  refine ⟨⟨addColRunFrom_length lines addColInit,
          fun j hj => addColRunFrom_getElem?_nonpipe lines addColInit j hj⟩,
         ⟨splitLinkRunFrom_length lines splitLinkInit,
          fun j hj => splitLinkRunFrom_getElem?_nonpipe lines splitLinkInit j hj⟩,
         sortFold_length (findTables lines) (lines, 0), ?_⟩
  intro j hj
  apply sortFold_getElem?_frame j (findTables lines) (lines, 0)
  intro rows hrows hmem
  have hpipe := findTables_mem_pipe hrows (List.mem_of_mem_drop hmem)
  rw [hj] at hpipe
  exact Bool.false_ne_true hpipe

/-- Witness for C4 on a small document with a heading, a table and text. -/
theorem C4_frame_nontable_lines_witness :
    isTableLine ((["# T".data, "| a | b |".data, "x".data] : List JStr).getD 2 [])
        = false ∧
    (addColRun ["# T".data, "| a | b |".data, "x".data])[2]? =
      (["# T".data, "| a | b |".data, "x".data] : List JStr)[2]? ∧
    (splitLinkRun ["# T".data, "| a | b |".data, "x".data])[2]? =
      (["# T".data, "| a | b |".data, "x".data] : List JStr)[2]? ∧
    (sortTablesLines ["# T".data, "| a | b |".data, "x".data])[2]? =
      (["# T".data, "| a | b |".data, "x".data] : List JStr)[2]? :=
  ⟨by decide,
   (C4_frame_nontable_lines ["# T".data, "| a | b |".data, "x".data]).1.2 2 (by decide),
   (C4_frame_nontable_lines ["# T".data, "| a | b |".data, "x".data]).2.1.2 2 (by decide),
   (C4_frame_nontable_lines ["# T".data, "| a | b |".data, "x".data]).2.2.2 2 (by decide)⟩

/-! ### Evaluation lemmas for the star-column insert -/

theorem spliceInsert_ne_nil (n : Nat) (a : α) (l : List α) :
    spliceInsert n a l ≠ [] := by
  simp [spliceInsert]

theorem splitChar_joinChar_splice (c : Char) {cell : JStr} (hc : c ∉ cell)
    (n : Nat) {parts : List JStr} (hp : ∀ p ∈ parts, c ∉ p) :
    splitChar c (joinChar c (spliceInsert n cell parts)) = spliceInsert n cell parts := by
  apply splitChar_joinChar c _ (spliceInsert_ne_nil n cell parts)
  intro p hmem
  rcases mem_spliceInsert hmem with rfl | h
  · exact hc
  · exact hp p h

theorem foldl_spliceDataRow_length (idx : Nat) (ds : List Nat) (ls : List JStr) :
    (ds.foldl (spliceDataRow idx) ls).length = ls.length :=
  foldl_setWith_length
    (fun line => joinChar '|' (spliceInsert idx [' '] (splitChar '|' line))) ds ls

theorem foldl_spliceDataRow_not_mem (idx : Nat) (ds : List Nat) (ls : List JStr)
    (j : Nat) (hj : j ∉ ds) :
    (ds.foldl (spliceDataRow idx) ls)[j]? = ls[j]? :=
  foldl_setWith_getElem?_not_mem
    (fun line => joinChar '|' (spliceInsert idx [' '] (splitChar '|' line))) ds ls j hj

theorem foldl_spliceDataRow_mem (idx : Nat) (ds : List Nat) (hnd : ds.Nodup)
    (ls : List JStr) (r : Nat) (hr : r ∈ ds) (hlt : r < ls.length) :
    (ds.foldl (spliceDataRow idx) ls).getD r [] =
      joinChar '|' (spliceInsert idx [' '] (splitChar '|' (ls.getD r []))) :=
  foldl_setWith_getD_mem
    (fun line => joinChar '|' (spliceInsert idx [' '] (splitChar '|' line)))
    ds hnd ls r hr hlt

theorem sepNewCell_pipe_free (x : Option JStr) :
    '|' ∉ ' ' :: separatorCellFrom x ++ [' '] := by
  intro h
  rcases List.mem_cons.mp h with h | h
  · exact absurd h (by decide)
  · rcases List.mem_append.mp h with h | h
    · exact sepCell_pipe_free x h
    · exact absurd h (by decide)

theorem processStarsTable_insert_eval (lines : List JStr) (jobs : List Job) (tt : Nat)
    (r0 r1 : Nat) (dataRows : List Nat) (g : Nat) (hne : dataRows ≠ [])
    (hg : githubColOf (splitChar '|' (lines.getD r0 [])) = some g)
    (hs : idxOf (splitChar '|' (lines.getD r0 [])) "GitHub Stars".data = none) :
    (processStarsTable (lines, jobs, tt) (r0 :: r1 :: dataRows)).1 =
      starsInsertLines lines r0 r1 dataRows g ∧
    (processStarsTable (lines, jobs, tt) (r0 :: r1 :: dataRows)).2.2 = tt + 1 := by
  have h3 : ¬((r0 :: r1 :: dataRows).length < 3) := by
    cases dataRows with
    | nil => exact absurd rfl hne
    | cons d ds => simp [List.length_cons]
  unfold processStarsTable
  rw [if_neg h3]
  dsimp only
  rw [hg]
  dsimp only
  rw [hs]
  exact ⟨rfl, rfl⟩

theorem processStarsTable_noop (st : List JStr × List Job × Nat) (rows : List Nat)
    (hs : ∃ sc, idxOf (splitChar '|' (st.1.getD (rows.headD 0) []))
      "GitHub Stars".data = some sc) :
    (processStarsTable st rows).1 = st.1 ∧ (processStarsTable st rows).2.2 = st.2.2 := by
  obtain ⟨sc, hsc⟩ := hs
  unfold processStarsTable
  by_cases h3 : rows.length < 3
  · rw [if_pos h3]
    exact ⟨rfl, rfl⟩
  · rw [if_neg h3]
    cases rows with
    | nil => exact absurd (by simp) h3
    | cons r0 rest =>
      cases rest with
      | nil => exact absurd (by simp) h3
      | cons r1 dataRows =>
        simp only [List.headD_cons] at hsc
        dsimp only
        cases hg : githubColOf (splitChar '|' (st.1.getD r0 [])) with
        | none => exact ⟨rfl, rfl⟩
        | some g =>
          dsimp only
          rw [hsc]
          exact ⟨rfl, rfl⟩

theorem starsInsertLines_frame (lines : List JStr) (r0 r1 : Nat) (dataRows : List Nat)
    (g : Nat) (j : Nat) (h0 : j ≠ r0) (h1 : j ≠ r1) (h2 : j ∉ dataRows) :
    (starsInsertLines lines r0 r1 dataRows g)[j]? = lines[j]? := by
  unfold starsInsertLines
  dsimp only
  rw [foldl_spliceDataRow_not_mem _ _ _ _ h2,
    List.getElem?_set_ne (Ne.symm h1), List.getElem?_set_ne (Ne.symm h0)]

theorem starsInsertLines_length (lines : List JStr) (r0 r1 : Nat)
    (dataRows : List Nat) (g : Nat) :
    (starsInsertLines lines r0 r1 dataRows g).length = lines.length := by
  unfold starsInsertLines
  dsimp only
  rw [foldl_spliceDataRow_length, List.length_set, List.length_set]

theorem starsInsertLines_header (lines : List JStr) (r0 r1 : Nat)
    (dataRows : List Nat) (g : Nat)
    (hnd01 : r0 ≠ r1) (h0d : r0 ∉ dataRows) (hb0 : r0 < lines.length) :
    (starsInsertLines lines r0 r1 dataRows g).getD r0 [] =
      joinChar '|' (spliceInsert (g + 1) " GitHub Stars ".data
        (splitChar '|' (lines.getD r0 []))) := by
  unfold starsInsertLines
  dsimp only
  rw [List.getD_eq_getElem?_getD, foldl_spliceDataRow_not_mem _ _ _ _ h0d,
    List.getElem?_set_ne (Ne.symm hnd01),
    List.getElem?_set_self hb0]
  rfl

theorem starsInsertLines_sep (lines : List JStr) (r0 r1 : Nat)
    (dataRows : List Nat) (g : Nat)
    (hnd01 : r0 ≠ r1) (h1d : r1 ∉ dataRows) (hb1 : r1 < lines.length) :
    ∃ cell, '|' ∉ cell ∧
      (starsInsertLines lines r0 r1 dataRows g).getD r1 [] =
        joinChar '|' (spliceInsert (g + 1) cell (splitChar '|' (lines.getD r1 []))) := by
  refine ⟨' ' :: separatorCellFrom (some (orDashes
    ((splitChar '|' (lines.getD r1 [])).get? g))) ++ [' '], sepNewCell_pipe_free _, ?_⟩
  unfold starsInsertLines
  dsimp only
  rw [getD_set_ne hnd01]
  rw [List.getD_eq_getElem?_getD, foldl_spliceDataRow_not_mem _ _ _ _ h1d,
    List.getElem?_set_self (by rw [List.length_set]; exact hb1)]
  rfl

theorem starsInsertLines_data (lines : List JStr) (r0 r1 : Nat)
    (dataRows : List Nat) (g : Nat)
    (hndd : dataRows.Nodup) (h0d : r0 ∉ dataRows) (h1d : r1 ∉ dataRows)
    (r : Nat) (hr : r ∈ dataRows) (hbr : r < lines.length) :
    (starsInsertLines lines r0 r1 dataRows g).getD r [] =
      joinChar '|' (spliceInsert (g + 1) [' '] (splitChar '|' (lines.getD r []))) := by
  unfold starsInsertLines
  dsimp only
  rw [foldl_spliceDataRow_mem (g + 1) dataRows hndd _ r hr
    (by rw [List.length_set, List.length_set]; exact hbr)]
  rw [getD_set_ne (fun h => h1d (by rw [h]; exact hr)),
    getD_set_ne (fun h => h0d (by rw [h]; exact hr))]

/-! ### Evaluation lemmas for add-github-stars-column.js -/

/-- The insertion index determined by a table header in
add-github-stars-column.js (lines 104–110): right after the Github column
when present, else before the trailing artifact cell. -/
def addColInsertIdx (hline : JStr) : Nat :=
  match githubColOf (splitChar '|' hline) with
  | some g => g + 1
  | none => (splitChar '|' hline).length - 1

/-- The loop state after processing a list of lines. -/
def addColFinal (s : AddColSt) : List JStr → AddColSt
  | [] => s
  | line :: rest => addColFinal (addColStep s line).1 rest

theorem addColRunFrom_append (xs ys : List JStr) :
    ∀ s, addColRunFrom s (xs ++ ys) =
      addColRunFrom s xs ++ addColRunFrom (addColFinal s xs) ys := by
  induction xs with
  | nil => intro s; rfl
  | cons x xs ih =>
    intro s
    simp only [List.cons_append, addColRunFrom, addColFinal, List.append_eq]
    rw [ih]

theorem addColStep_nomodify (s : AddColSt) (line : JStr)
    (hp : isTableLine line = true) (hin : s.inTable = true)
    (hm : s.modifyThisTable = false) :
    addColStep s line = ({ s with headerLineCount := s.headerLineCount + 1 }, line) := by
  unfold addColStep
  rw [hp]
  simp [hin, hm]

theorem addColStep_header_skip (s : AddColSt) (line : JStr)
    (hp : isTableLine line = true) (hin : s.inTable = false) {sc : Nat}
    (hsc : idxOf (splitChar '|' line) "GitHub Stars".data = some sc) :
    addColStep s line =
      ({ s with
          inTable := true
          headerLineCount := 1
          githubColIndex := githubColOf (splitChar '|' line)
          starsColIndex := some sc
          modifyThisTable := false }, line) := by
  unfold addColStep
  rw [hp]
  simp [hin, hsc]

theorem addColStep_header_insert (s : AddColSt) (line : JStr)
    (hp : isTableLine line = true) (hin : s.inTable = false)
    (hsc : idxOf (splitChar '|' line) "GitHub Stars".data = none) :
    addColStep s line =
      (⟨true, 1, true, githubColOf (splitChar '|' line), none, addColInsertIdx line,
        s.tablesModified + 1, s.rowsTouched + 1⟩,
       joinChar '|' (spliceInsert (addColInsertIdx line) " GitHub Stars ".data
         (splitChar '|' line))) := by
  unfold addColStep addColInsertIdx
  rw [hp]
  simp [hin, hsc]

theorem addColStep_sep_insert (s : AddColSt) (line : JStr)
    (hp : isTableLine line = true) (hin : s.inTable = true)
    (hm : s.modifyThisTable = true) (hc : s.headerLineCount = 1) :
    ∃ cell, '|' ∉ cell ∧
      addColStep s line =
        ({ s with
            headerLineCount := 2
            rowsTouched := s.rowsTouched + 1 },
         joinChar '|' (spliceInsert s.insertIndex cell (splitChar '|' line))) := by
  refine ⟨' ' :: separatorCellFrom (some (orDashes ((splitChar '|' line).get?
    (match s.githubColIndex with
     | some g => g
     | none => (splitChar '|' line).length - 2)))) ++ [' '],
    sepNewCell_pipe_free _, ?_⟩
  unfold addColStep
  rw [hp]
  simp [hin, hm, hc]

theorem addColStep_data_insert (s : AddColSt) (line : JStr)
    (hp : isTableLine line = true) (hin : s.inTable = true)
    (hm : s.modifyThisTable = true) (hc : 2 ≤ s.headerLineCount) :
    addColStep s line =
      ({ s with
          headerLineCount := s.headerLineCount + 1
          rowsTouched := s.rowsTouched + 1 },
       joinChar '|' (spliceInsert s.insertIndex [' '] (splitChar '|' line))) := by
  unfold addColStep
  rw [hp]
  have h2 : ¬(s.headerLineCount + 1 = 2) := by omega
  simp [hin, hm, h2]

theorem addColRunFrom_skip_pipes (ds : List JStr) :
    ∀ s : AddColSt, s.inTable = true → s.modifyThisTable = false →
      (∀ d ∈ ds, isTableLine d = true) → addColRunFrom s ds = ds := by
  induction ds with
  | nil => intro s _ _ _; rfl
  | cons d ds ih =>
    intro s hin hm hp
    simp only [addColRunFrom]
    rw [addColStep_nomodify s d (hp d (List.mem_cons_self d ds)) hin hm]
    dsimp only
    rw [ih { s with headerLineCount := s.headerLineCount + 1 } hin hm
      (fun x hx => hp x (List.mem_cons_of_mem d hx))]

theorem addColRunFrom_insert_pipes (ds : List JStr) :
    ∀ s : AddColSt, s.inTable = true → s.modifyThisTable = true →
      2 ≤ s.headerLineCount → (∀ d ∈ ds, isTableLine d = true) →
      addColRunFrom s ds =
        ds.map (fun d => joinChar '|'
          (spliceInsert s.insertIndex [' '] (splitChar '|' d))) := by
  induction ds with
  | nil => intro s _ _ _ _; rfl
  | cons d ds ih =>
    intro s hin hm hc hp
    simp only [addColRunFrom, List.map_cons]
    rw [addColStep_data_insert s d (hp d (List.mem_cons_self d ds)) hin hm hc]
    dsimp only
    rw [ih { s with
              headerLineCount := s.headerLineCount + 1
              rowsTouched := s.rowsTouched + 1 } hin hm
      (by show 2 ≤ s.headerLineCount + 1; omega)
      (fun x hx => hp x (List.mem_cons_of_mem d hx))]

theorem addColRun_table_skip (s : AddColSt) (hin : s.inTable = false)
    (hline : JStr) (tds rest : List JStr)
    (hp : isTableLine hline = true) (hps : ∀ d ∈ tds, isTableLine d = true)
    {sc : Nat} (hsc : idxOf (splitChar '|' hline) "GitHub Stars".data = some sc) :
    ∃ s', addColRunFrom s ((hline :: tds) ++ rest) =
      (hline :: tds) ++ addColRunFrom s' rest := by
  refine ⟨addColFinal s (hline :: tds), ?_⟩
  rw [addColRunFrom_append]
  have h : addColRunFrom s (hline :: tds) = hline :: tds := by
    simp only [addColRunFrom]
    rw [addColStep_header_skip s hline hp hin hsc]
    rw [addColRunFrom_skip_pipes tds _ rfl rfl hps]
  rw [h]

theorem addColRun_table_insert (s : AddColSt) (hin : s.inTable = false)
    (hline sline : JStr) (ds rest : List JStr)
    (hp : isTableLine hline = true) (hp1 : isTableLine sline = true)
    (hps : ∀ d ∈ ds, isTableLine d = true)
    (hsc : idxOf (splitChar '|' hline) "GitHub Stars".data = none) :
    ∃ (s' : AddColSt) (cellS : JStr), '|' ∉ cellS ∧
      addColRunFrom s ((hline :: sline :: ds) ++ rest) =
        (joinChar '|' (spliceInsert (addColInsertIdx hline) " GitHub Stars ".data
            (splitChar '|' hline))
          :: joinChar '|' (spliceInsert (addColInsertIdx hline) cellS
              (splitChar '|' sline))
          :: ds.map (fun d => joinChar '|'
              (spliceInsert (addColInsertIdx hline) [' '] (splitChar '|' d))))
          ++ addColRunFrom s' rest := by
  refine ⟨addColFinal s (hline :: sline :: ds), ?_⟩
  have hstep1 := addColStep_header_insert s hline hp hin hsc
  obtain ⟨cellS, hcS, hstep2⟩ := addColStep_sep_insert
    ⟨true, 1, true, githubColOf (splitChar '|' hline), none, addColInsertIdx hline,
      s.tablesModified + 1, s.rowsTouched + 1⟩ sline hp1 rfl rfl rfl
  refine ⟨cellS, hcS, ?_⟩
  rw [addColRunFrom_append]
  have h : addColRunFrom s (hline :: sline :: ds) =
      joinChar '|' (spliceInsert (addColInsertIdx hline) " GitHub Stars ".data
          (splitChar '|' hline))
        :: joinChar '|' (spliceInsert (addColInsertIdx hline) cellS
            (splitChar '|' sline))
        :: ds.map (fun d => joinChar '|'
            (spliceInsert (addColInsertIdx hline) [' '] (splitChar '|' d))) := by
    simp only [addColRunFrom]
    rw [hstep1]
    simp only
    rw [hstep2]
    simp only
    rw [addColRunFrom_insert_pipes ds _ rfl rfl (by simp) hps]
  rw [h]

/-! ### Claim theorems: column insertion (C1, C5) -/

/-- C1: when a table triggers the `GitHub Stars` column insertion
(fill-github-stars.js: at least 3 lines, a Github column at `g`, no stars
column yet), exactly one new cell is spliced into the header row, the
separator row, and every data row, all at the same index `g + 1`, and no
other line of the document changes; the insertion index is a real position of
every row when the rows agreed on their cell count, every row ends up with
exactly one more cell than before, and all rows again agree on their cell
count.  The streaming insertion of add-github-stars-column.js likewise
splices exactly one pipe-free cell into every line of the table — header,
separator, and data rows — at its single index `addColInsertIdx`, leaving
the rest of the stream to the continuation run. -/
theorem C1_column_insert_aligned :
    (∀ (lines : List JStr) (jobs : List Job) (tt : Nat) (r0 r1 : Nat)
        (dataRows : List Nat) (g : Nat),
      (r0 :: r1 :: dataRows).Nodup → dataRows ≠ [] →
      (∀ r ∈ r0 :: r1 :: dataRows, r < lines.length) →
      githubColOf (splitChar '|' (lines.getD r0 [])) = some g →
      idxOf (splitChar '|' (lines.getD r0 [])) "GitHub Stars".data = none →
      (∀ r ∈ r0 :: r1 :: dataRows,
        (splitChar '|' (lines.getD r [])).length =
          (splitChar '|' (lines.getD r0 [])).length) →
      (∀ j, j ∉ r0 :: r1 :: dataRows →
        (processStarsTable (lines, jobs, tt) (r0 :: r1 :: dataRows)).1[j]? =
          lines[j]?) ∧
      (∀ r ∈ r0 :: r1 :: dataRows, ∃ cell, '|' ∉ cell ∧
        splitChar '|'
            ((processStarsTable (lines, jobs, tt) (r0 :: r1 :: dataRows)).1.getD r []) =
          spliceInsert (g + 1) cell (splitChar '|' (lines.getD r []))) ∧
      (∀ r ∈ r0 :: r1 :: dataRows,
        g + 1 ≤ (splitChar '|' (lines.getD r [])).length) ∧
      (∀ r ∈ r0 :: r1 :: dataRows,
        (splitChar '|'
            ((processStarsTable (lines, jobs, tt) (r0 :: r1 :: dataRows)).1.getD r [])).length =
          (splitChar '|' (lines.getD r [])).length + 1) ∧
      (∀ r ∈ r0 :: r1 :: dataRows, ∀ r' ∈ r0 :: r1 :: dataRows,
        (splitChar '|'
            ((processStarsTable (lines, jobs, tt) (r0 :: r1 :: dataRows)).1.getD r [])).length =
          (splitChar '|'
            ((processStarsTable (lines, jobs, tt) (r0 :: r1 :: dataRows)).1.getD r' [])).length)) ∧
    (∀ (s : AddColSt) (hline sline : JStr) (ds rest : List JStr),
      s.inTable = false → isTableLine hline = true → isTableLine sline = true →
      (∀ d ∈ ds, isTableLine d = true) →
      idxOf (splitChar '|' hline) "GitHub Stars".data = none →
      ∃ (s' : AddColSt) (out : List JStr),
        addColRunFrom s ((hline :: sline :: ds) ++ rest) =
          out ++ addColRunFrom s' rest ∧
        out.length = (hline :: sline :: ds).length ∧
        ∀ j, j < out.length → ∃ cell, '|' ∉ cell ∧
          splitChar '|' (out.getD j []) =
            spliceInsert (addColInsertIdx hline) cell
              (splitChar '|' ((hline :: sline :: ds).getD j []))) := by
  constructor
  · intro lines jobs tt r0 r1 dataRows g hnd hne hb hg hs hagree
    have heval := (processStarsTable_insert_eval lines jobs tt r0 r1 dataRows g hne hg hs).1
    rcases List.nodup_cons.mp hnd with ⟨h0m, hnd1⟩
    rcases List.nodup_cons.mp hnd1 with ⟨h1d, hndd⟩
    have h01 : r0 ≠ r1 := fun h => h0m (h ▸ List.mem_cons_self r1 dataRows)
    have h0d : r0 ∉ dataRows := fun h => h0m (List.mem_cons_of_mem r1 h)
    have hB : ∀ r ∈ r0 :: r1 :: dataRows, ∃ cell, '|' ∉ cell ∧
        splitChar '|'
            ((processStarsTable (lines, jobs, tt) (r0 :: r1 :: dataRows)).1.getD r []) =
          spliceInsert (g + 1) cell (splitChar '|' (lines.getD r [])) := by
      intro r hr
      rw [heval]
      rcases List.mem_cons.mp hr with rfl | hr1
      · refine ⟨" GitHub Stars ".data, by decide, ?_⟩
        rw [starsInsertLines_header lines r r1 dataRows g h01 h0d
          (hb r (List.mem_cons_self r _))]
        exact splitChar_joinChar_splice '|' (by decide) (g + 1)
          (splitChar_not_mem '|' _)
      · rcases List.mem_cons.mp hr1 with rfl | hr2
        · obtain ⟨cell, hcp, heq⟩ := starsInsertLines_sep lines r0 r dataRows g h01 h1d
            (hb r (List.mem_cons_of_mem r0 (List.mem_cons_self r _)))
          refine ⟨cell, hcp, ?_⟩
          rw [heq]
          exact splitChar_joinChar_splice '|' hcp (g + 1) (splitChar_not_mem '|' _)
        · refine ⟨[' '], by decide, ?_⟩
          rw [starsInsertLines_data lines r0 r1 dataRows g hndd h0d h1d r hr2
            (hb r (List.mem_cons_of_mem r0 (List.mem_cons_of_mem r1 hr2)))]
          exact splitChar_joinChar_splice '|' (by decide) (g + 1)
            (splitChar_not_mem '|' _)
    have hD : ∀ r ∈ r0 :: r1 :: dataRows,
        (splitChar '|'
            ((processStarsTable (lines, jobs, tt) (r0 :: r1 :: dataRows)).1.getD r [])).length =
          (splitChar '|' (lines.getD r [])).length + 1 := by
      intro r hr
      obtain ⟨cell, _, heq⟩ := hB r hr
      rw [heq, spliceInsert_length]
    refine ⟨?_, hB, ?_, hD, ?_⟩
    · intro j hj
      rw [heval]
      exact starsInsertLines_frame lines r0 r1 dataRows g j
        (fun h => hj (h ▸ List.mem_cons_self r0 _))
        (fun h => hj (List.mem_cons_of_mem r0 (h ▸ List.mem_cons_self r1 _)))
        (fun h => hj (List.mem_cons_of_mem r0 (List.mem_cons_of_mem r1 h)))
    · intro r hr
      have hlt := githubColOf_lt_length hg
      have := hagree r hr
      omega
    · intro r hr r' hr'
      rw [hD r hr, hD r' hr', hagree r hr, hagree r' hr']
  · intro s hline sline ds rest hin hp hp1 hps hsc
    obtain ⟨s', cellS, hcS, hrun⟩ :=
      addColRun_table_insert s hin hline sline ds rest hp hp1 hps hsc
    refine ⟨s', _, hrun, by simp, ?_⟩
    intro j hj
    match j with
    | 0 =>
      refine ⟨" GitHub Stars ".data, by decide, ?_⟩
      exact splitChar_joinChar_splice '|' (by decide) _ (splitChar_not_mem '|' _)
    | 1 =>
      refine ⟨cellS, hcS, ?_⟩
      exact splitChar_joinChar_splice '|' hcS _ (splitChar_not_mem '|' _)
    | (j + 2) =>
      refine ⟨[' '], by decide, ?_⟩
      have hjd : j < ds.length := by
        simp at hj
        omega
      have hmap : (ds.map (fun d => joinChar '|'
          (spliceInsert (addColInsertIdx hline) [' '] (splitChar '|' d)))).getD j [] =
          joinChar '|' (spliceInsert (addColInsertIdx hline) [' ']
            (splitChar '|' (ds.getD j []))) := by
        rw [List.getD_eq_getElem?_getD, List.getElem?_map,
          List.getElem?_eq_getElem hjd]
        simp [List.getD_eq_getElem?_getD, List.getElem?_eq_getElem hjd]
      simp only [List.getD_cons_succ]
      rw [hmap]
      exact splitChar_joinChar_splice '|' (by decide) _ (splitChar_not_mem '|' _)

/-- A concrete document: one table with columns `Name, Github` and one data
row, so the star-column insertion triggers with `githubCol = 2`. -/
def sampleInsertDoc : List JStr :=
  ["| Name | Github |".data, "| --- | --- |".data, "| a | x |".data]

/-- Witness for C1 on `sampleInsertDoc` (fill-github-stars.js clause at
`r0 = 0`, `r1 = 1`, data row `2`, `g = 2`). -/
theorem C1_column_insert_aligned_witness :
    ([0, 1, 2] : List Nat).Nodup ∧
    ([2] : List Nat) ≠ [] ∧
    (∀ r ∈ ([0, 1, 2] : List Nat), r < sampleInsertDoc.length) ∧
    githubColOf (splitChar '|' (sampleInsertDoc.getD 0 [])) = some 2 ∧
    idxOf (splitChar '|' (sampleInsertDoc.getD 0 [])) "GitHub Stars".data = none ∧
    (∀ r ∈ ([0, 1, 2] : List Nat),
      (splitChar '|' (sampleInsertDoc.getD r [])).length =
        (splitChar '|' (sampleInsertDoc.getD 0 [])).length) ∧
    ((∀ j, j ∉ ([0, 1, 2] : List Nat) →
        (processStarsTable (sampleInsertDoc, [], 0) [0, 1, 2]).1[j]? =
          sampleInsertDoc[j]?) ∧
      (∀ r ∈ ([0, 1, 2] : List Nat), ∃ cell, '|' ∉ cell ∧
        splitChar '|'
            ((processStarsTable (sampleInsertDoc, [], 0) [0, 1, 2]).1.getD r []) =
          spliceInsert (2 + 1) cell (splitChar '|' (sampleInsertDoc.getD r []))) ∧
      (∀ r ∈ ([0, 1, 2] : List Nat),
        2 + 1 ≤ (splitChar '|' (sampleInsertDoc.getD r [])).length) ∧
      (∀ r ∈ ([0, 1, 2] : List Nat),
        (splitChar '|'
            ((processStarsTable (sampleInsertDoc, [], 0) [0, 1, 2]).1.getD r [])).length =
          (splitChar '|' (sampleInsertDoc.getD r [])).length + 1) ∧
      (∀ r ∈ ([0, 1, 2] : List Nat), ∀ r' ∈ ([0, 1, 2] : List Nat),
        (splitChar '|'
            ((processStarsTable (sampleInsertDoc, [], 0) [0, 1, 2]).1.getD r [])).length =
          (splitChar '|'
            ((processStarsTable (sampleInsertDoc, [], 0) [0, 1, 2]).1.getD r' [])).length)) :=
  ⟨by decide, by decide, by decide, by decide, by decide, by decide,
    C1_column_insert_aligned.1 sampleInsertDoc [] 0 0 1 [2] 2
      (by decide) (by decide) (by decide) (by decide) (by decide) (by decide)⟩

/-- C5: a table whose header already holds a `GitHub Stars` cell (trimmed,
case-insensitive match) is a no-op for the column-insert operation: the
fill-github-stars.js pass keeps every line and its touched counter; a
document all of whose tables carry the column comes out line-for-line
identical with zero tables touched; and the streaming
add-github-stars-column.js pass emits such a table's lines verbatim. -/
theorem C5_insert_noop_when_column_exists :
    (∀ (st : List JStr × List Job × Nat) (rows : List Nat),
      (∃ sc, idxOf (splitChar '|' (st.1.getD (rows.headD 0) []))
        "GitHub Stars".data = some sc) →
      (processStarsTable st rows).1 = st.1 ∧
        (processStarsTable st rows).2.2 = st.2.2) ∧
    (∀ lines : List JStr,
      (∀ rows ∈ findTables lines, ∃ sc,
        idxOf (splitChar '|' (lines.getD (rows.headD 0) []))
          "GitHub Stars".data = some sc) →
      ((findTables lines).foldl processStarsTable (lines, [], 0)).1 = lines ∧
        ((findTables lines).foldl processStarsTable (lines, [], 0)).2.2 = 0) ∧
    (∀ (s : AddColSt) (hline : JStr) (tds rest : List JStr),
      s.inTable = false → isTableLine hline = true →
      (∀ d ∈ tds, isTableLine d = true) →
      (∃ sc, idxOf (splitChar '|' hline) "GitHub Stars".data = some sc) →
      ∃ s', addColRunFrom s ((hline :: tds) ++ rest) =
        (hline :: tds) ++ addColRunFrom s' rest) := by
  have hfold : ∀ (ts : List (List Nat)) (lines : List JStr) (jobs : List Job)
      (tt : Nat),
      (∀ rows ∈ ts, ∃ sc, idxOf (splitChar '|' (lines.getD (rows.headD 0) []))
        "GitHub Stars".data = some sc) →
      (ts.foldl processStarsTable (lines, jobs, tt)).1 = lines ∧
        (ts.foldl processStarsTable (lines, jobs, tt)).2.2 = tt := by
    intro ts
    induction ts with
    | nil => exact fun lines jobs tt _ => ⟨rfl, rfl⟩
    | cons rows ts ih =>
      intro lines jobs tt hall
      simp only [List.foldl_cons]
      have h1 := processStarsTable_noop (lines, jobs, tt) rows
        (hall rows (List.mem_cons_self rows ts))
      have hsplit : processStarsTable (lines, jobs, tt) rows =
          (lines, (processStarsTable (lines, jobs, tt) rows).2.1, tt) := by
        have e1 := h1.1
        have e2 := h1.2
        calc processStarsTable (lines, jobs, tt) rows
            = ((processStarsTable (lines, jobs, tt) rows).1,
               ((processStarsTable (lines, jobs, tt) rows).2.1,
                (processStarsTable (lines, jobs, tt) rows).2.2)) := rfl
          _ = (lines, (processStarsTable (lines, jobs, tt) rows).2.1, tt) := by
              rw [e1, e2]
      rw [hsplit]
      exact ih lines _ tt (fun r hr => hall r (List.mem_cons_of_mem rows hr))
  refine ⟨fun st rows hs => processStarsTable_noop st rows hs, ?_, ?_⟩
  · intro lines hall
    exact hfold (findTables lines) lines [] 0 hall
  · intro s hline tds rest hin hp hps hsc
    obtain ⟨sc, hsc⟩ := hsc
    exact addColRun_table_skip s hin hline tds rest hp hps hsc

/-- Witness for C5 on `sampleSortDoc`, whose single table already has the
`GitHub Stars` column. -/
theorem C5_insert_noop_when_column_exists_witness :
    (∃ sc, idxOf (splitChar '|' (sampleSortDoc.getD 0 []))
      "GitHub Stars".data = some sc) ∧
    (processStarsTable (sampleSortDoc, [], 0) [0, 1, 2, 3, 4, 5, 6]).1 =
      sampleSortDoc ∧
    ((findTables sampleSortDoc).foldl processStarsTable (sampleSortDoc, [], 0)).1 =
      sampleSortDoc ∧
    ∃ s', addColRunFrom addColInit
        (("| Name | GitHub Stars |".data :: ["| --- | --- |".data]) ++ []) =
      ("| Name | GitHub Stars |".data :: ["| --- | --- |".data]) ++
        addColRunFrom s' [] :=
  ⟨⟨2, by decide⟩,
   (C5_insert_noop_when_column_exists.1 (sampleSortDoc, [], 0) [0, 1, 2, 3, 4, 5, 6]
     ⟨2, by decide⟩).1,
   (C5_insert_noop_when_column_exists.2.1 sampleSortDoc (fun rows hr => by
     have he : findTables sampleSortDoc = [[0, 1, 2, 3, 4, 5, 6]] := by decide
     rw [he] at hr
     have : rows = [0, 1, 2, 3, 4, 5, 6] := by simpa using hr
     rw [this]
     exact ⟨2, by decide⟩)).1,
   C5_insert_noop_when_column_exists.2.2 addColInit
     "| Name | GitHub Stars |".data ["| --- | --- |".data] [] rfl
     (by decide) (by decide) ⟨2, by decide⟩⟩

/-! ### Claim theorems: the fetch loop (C6, C8) -/

/-- C6 (failing input): the per-run cache does not bound lookups to one per
normalized repository.  Two rows citing the same repository in different
casings (`A/B` and `a/b`) produce two API requests for the single normalized
id `a/b`, because the cache is keyed by the unnormalized string; and even two
rows with the identical string `a/b` produce two requests when the first 2xx
response carries no star count, because the cached `null` is treated as a
miss by the `stars == null` test (defeating the `cache.set(repo, stars)`
just executed). -/
theorem C6_duplicate_lookup :
    (runJobs (fun _ => FetchRes.ok (some 5))
        [⟨0, 2, "A/B".data⟩, ⟨0, 2, "a/b".data⟩]
        ⟨["| x |".data], [], [], 0, false⟩).calls =
      ["a/b".data, "a/b".data] ∧
    (runJobs (fun _ => FetchRes.ok none)
        [⟨0, 2, "a/b".data⟩, ⟨0, 2, "a/b".data⟩]
        ⟨["| x |".data], [], [], 0, false⟩).calls =
      ["a/b".data, "a/b".data] := by
  constructor <;> decide

/-- C8: a rate-limited lookup halts the fetch loop — the resulting state does
not depend on the remaining jobs at all (no further network request, their
rows left untouched), it only records the one rate-limited call; and the full
run persists the document whenever any structural edit (`tablesTouched > 0`)
or row write (`rowsUpdated > 0`) was applied: the written content is exactly
the final loop state's lines, edits included. -/
theorem C8_rate_limit_stops_and_persists :
    (∀ (fetch : JStr → FetchRes) (st : RunSt) (job : Job) (rest : List Job),
      (st.cache.lookup job.repo = none ∨ st.cache.lookup job.repo = some none) →
      fetch (normalizeRepo job.repo) = FetchRes.rateLimited →
      runJobs fetch (job :: rest) st =
        { st with
            calls := st.calls ++ [normalizeRepo job.repo]
            hitRateLimit := true }) ∧
    (∀ (fetch : JStr → FetchRes) (content : JStr),
      ((findTables (splitChar '\n' content)).foldl processStarsTable
        (splitChar '\n' content, [], 0)).2.1.isEmpty = false →
      ((runJobs fetch
          ((findTables (splitChar '\n' content)).foldl processStarsTable
            (splitChar '\n' content, [], 0)).2.1
          ⟨((findTables (splitChar '\n' content)).foldl processStarsTable
            (splitChar '\n' content, [], 0)).1, [], [], 0, false⟩).rowsUpdated > 0 ∨
        ((findTables (splitChar '\n' content)).foldl processStarsTable
          (splitChar '\n' content, [], 0)).2.2 > 0) →
      (fillStarsMain fetch content).1 =
        some (joinChar '\n'
          (runJobs fetch
            ((findTables (splitChar '\n' content)).foldl processStarsTable
              (splitChar '\n' content, [], 0)).2.1
            ⟨((findTables (splitChar '\n' content)).foldl processStarsTable
              (splitChar '\n' content, [], 0)).1, [], [], 0, false⟩).lines)) := by
  constructor
  · intro fetch st job rest hcache hfetch
    rcases hcache with h | h <;>
      · simp only [runJobs]
        rw [h]
        dsimp only
        rw [hfetch]
  · intro fetch content hjobs hor
    simp only [fillStarsMain, hjobs, Bool.false_eq_true, if_false]
    rw [if_pos hor]

/-- Witness for C8: a rate-limited first call with one more job pending, and
the concrete one-table document whose structural edit is persisted. -/
theorem C8_rate_limit_stops_and_persists_witness :
    ((([] : List (JStr × Option ℤ)).lookup "a/b".data = none ∨
        ([] : List (JStr × Option ℤ)).lookup "a/b".data = some none) ∧
      (fun _ => FetchRes.rateLimited) (normalizeRepo "a/b".data) =
        FetchRes.rateLimited ∧
      runJobs (fun _ => FetchRes.rateLimited)
          [⟨0, 2, "a/b".data⟩, ⟨1, 2, "c/d".data⟩]
          ⟨["| x |".data], [], [], 0, false⟩ =
        ⟨["| x |".data], [], ["a/b".data], 0, true⟩) ∧
    (fillStarsMain (fun _ => FetchRes.rateLimited)
        "| Name | Github |\n| --- | --- |\n| a | https://github.com/o/r |".data).1 =
      some
        "| Name | Github | GitHub Stars |\n| --- | --- | --- |\n| a | https://github.com/o/r | |".data := by
  refine ⟨⟨Or.inl (by decide), rfl, ?_⟩, ?_⟩
  · exact C8_rate_limit_stops_and_persists.1 (fun _ => FetchRes.rateLimited)
      ⟨["| x |".data], [], [], 0, false⟩ ⟨0, 2, "a/b".data⟩ [⟨1, 2, "c/d".data⟩]
      (Or.inl (by decide)) rfl
  · have h := C8_rate_limit_stops_and_persists.2 (fun _ => FetchRes.rateLimited)
      "| Name | Github |\n| --- | --- |\n| a | https://github.com/o/r |".data
      (by decide) (Or.inr (by decide))
    rw [h]
    decide
